import Mathlib

/-!
Verification of the `mdformat` Markdown formatter (`src/main.rs`).

The development is a shallow embedding: lines are `List Char`, documents are
`String`, and every Rust function of the core transform is translated to a
computable Lean function of the same name.  The three regular expressions of
the source (`RE_LIST_ITEM`, `RE_CJK`, `RE_CODE_SPAN`) are embedded as
hand-written scanners that implement the leftmost, non-overlapping
`replace_all` semantics of the `fancy_regex` crate for these concrete
patterns (none of them uses look-around or back-references, and none can
match the empty string, so match semantics are those of an ordinary regex
engine).
-/

set_option maxRecDepth 20000

/-- The backtick character, written via its code point. -/
def backtick : Char := Char.ofNat 96

/-- The Unicode `White_Space` property, which is what Rust's
`char::is_whitespace` (used by `str::trim` / `str::trim_end`) and the
regex class `\s` of `fancy_regex` both match. -/
def isRustWs (c : Char) : Bool :=
  let n := c.toNat
  (0x09 ≤ n && n ≤ 0x0D) || n == 0x20 || n == 0x85 || n == 0xA0 ||
    n == 0x1680 || (0x2000 ≤ n && n ≤ 0x200A) || n == 0x2028 ||
    n == 0x2029 || n == 0x202F || n == 0x205F || n == 0x3000

/-- The character class `[a-zA-Z0-9]` of `RE_CJK`. -/
def isAsciiAlnum (c : Char) : Bool :=
  ('a' ≤ c && c ≤ 'z') || ('A' ≤ c && c ≤ 'Z') || ('0' ≤ c && c ≤ '9')

/-- The regex class `\p{sc=Han}` of `RE_CJK`: the principal code-point
ranges of the Unicode Han script (CJK radicals, Kangxi radicals, the
ideographic iteration/closing marks, the CJK Unified Ideographs blocks and
their extensions, and the compatibility ideographs). -/
def isHanChar (c : Char) : Bool :=
  let n := c.toNat
  (0x2E80 ≤ n && n ≤ 0x2E99) || (0x2E9B ≤ n && n ≤ 0x2EF3) ||
  (0x2F00 ≤ n && n ≤ 0x2FD5) || n == 0x3005 || n == 0x3007 ||
  (0x3021 ≤ n && n ≤ 0x3029) || (0x3038 ≤ n && n ≤ 0x303B) ||
  (0x3400 ≤ n && n ≤ 0x4DBF) || (0x4E00 ≤ n && n ≤ 0x9FFF) ||
  (0xF900 ≤ n && n ≤ 0xFA6D) || (0xFA70 ≤ n && n ≤ 0xFAD9) ||
  (0x20000 ≤ n && n ≤ 0x2A6DF) || (0x2A700 ≤ n && n ≤ 0x2B81F) ||
  (0x2B820 ≤ n && n ≤ 0x2EBEF) || (0x2F800 ≤ n && n ≤ 0x2FA1D) ||
  (0x30000 ≤ n && n ≤ 0x3134A)

/-- The ASCII digit class `\d` of `RE_LIST_ITEM` (the inputs of interest
only contain ASCII decimal digits). -/
def isAsciiDigit (c : Char) : Bool := '0' ≤ c && c ≤ '9'

/-- One decimal digit, as rendered by Rust's `Display` for `usize`. -/
def digitChar (n : Nat) : Char :=
  match n with
  | 0 => '0' | 1 => '1' | 2 => '2' | 3 => '3' | 4 => '4'
  | 5 => '5' | 6 => '6' | 7 => '7' | 8 => '8' | _ => '9'

/-- Fuelled decimal rendering (structural recursion on the fuel, so that
the kernel can evaluate it). -/
def natDecimalAux : Nat → Nat → List Char
  | 0, _ => []
  | fuel + 1, n =>
    if n < 10 then [digitChar n]
    else natDecimalAux fuel (n / 10) ++ [digitChar (n % 10)]

/-- Decimal rendering of a `usize` counter, as `format!("{}", n)` does. -/
def natDecimal (n : Nat) : List Char := natDecimalAux (n + 1) n

/-- Rust `str::trim_start`: drop leading whitespace characters. -/
def trimStart (l : List Char) : List Char := l.dropWhile isRustWs

/-- Rust `str::trim_end`: drop trailing whitespace characters (recursive
formulation, equivalent to removing the maximal whitespace suffix). -/
def trimEnd : List Char → List Char
  | [] => []
  | c :: l =>
    match trimEnd l with
    | [] => if isRustWs c then [] else [c]
    | r => c :: r

/-- Rust `str::trim`: drop whitespace at both ends. -/
def rustTrim (l : List Char) : List Char := trimEnd (trimStart l)

/-- Split a character list at every newline.  On a non-empty text that does
not end with `'\n'` this agrees with Rust's `str::lines` (which in addition
strips one trailing `'\r'` per line; the pipeline's subsequent
`trim_end` subsumes that). -/
def splitOnNl : List Char → List (List Char)
  | [] => [[]]
  | c :: rest =>
    if c = '\n' then [] :: splitOnNl rest
    else
      match splitOnNl rest with
      | [] => [[c]]
      | hd :: tl => (c :: hd) :: tl

/-- The Line Splitter of `format_markdown`:
`text.trim().lines().map(|line| line.trim_end())`. -/
def splitToLines (text : List Char) : List (List Char) :=
  let t := rustTrim text
  if t = [] then [] else (splitOnNl t).map trimEnd

/-- UTF-8 byte size of a capture, as Rust's `as_str().len()`. -/
def utf8Len (l : List Char) : Nat := (l.map Char.utf8Size).sum

/-- Rust `ListType` of `src/main.rs`. -/
inductive ListType
  | Unordered
  | Ordered
deriving DecidableEq, Repr

/-- Rust `ListContext` of `src/main.rs`. -/
structure ListContext where
  list_type : ListType
  indent : Nat
  counter : Nat
deriving DecidableEq, Repr

/-- The regex `RE_LIST_ITEM = ^(\s*)(?:([*+-])|(\d+)\.)\s+(.*)`:
on a match, returns the byte length of the leading-whitespace capture, the
list type (`Unordered` when group 2 matched one of `*`, `+`, `-`;
`Ordered` when group 3 matched a digit run followed by `.`), and the
content capture (everything after the maximal whitespace run that follows
the marker).  Returns `none` when the line does not match. -/
def parseListItem (l : List Char) : Option (Nat × ListType × List Char) :=
  match l.dropWhile isRustWs with
  | [] => none
  | c :: rest2 =>
    if c = '*' ∨ c = '+' ∨ c = '-' then
      match rest2 with
      | [] => none
      | d :: _ =>
        if isRustWs d then
          some (utf8Len (l.takeWhile isRustWs), ListType.Unordered, rest2.dropWhile isRustWs)
        else none
    else if isAsciiDigit c then
      match (c :: rest2).dropWhile isAsciiDigit with
      | '.' :: rest3 =>
        match rest3 with
        | [] => none
        | e :: _ =>
          if isRustWs e then
            some (utf8Len (l.takeWhile isRustWs), ListType.Ordered, rest3.dropWhile isRustWs)
          else none
      | _ => none
    else none

/-- Rust `LineState` of `src/main.rs`. -/
inductive LineState
  | Normal
  | Table
  | CodeStart
  | CodeEnd
  | Code
  | Empty
  | Title
  | List
  | Blockquote
deriving DecidableEq, Repr

/-- Rust `line.starts_with("```")`. -/
def startsWithFence (l : List Char) : Bool :=
  match l with
  | c1 :: c2 :: c3 :: _ => c1 = backtick && c2 = backtick && c3 = backtick
  | _ => false

/-- Rust `get_line_state` of `src/main.rs`. -/
def get_line_state (line : List Char) (prev_state : LineState) : LineState :=
  if prev_state = LineState.CodeStart ∨ prev_state = LineState.Code then
    if startsWithFence line then LineState.CodeEnd else LineState.Code
  else if line = [] then LineState.Empty
  else if (parseListItem line).isSome then LineState.List
  else if startsWithFence line then LineState.CodeStart
  else
    match line with
    | '#' :: _ => LineState.Title
    | '>' :: _ => LineState.Blockquote
    | '|' :: _ => LineState.Table
    | _ => LineState.Normal

/-- One `replace_all` pass of
`RE_CJK = (\p{sc=Han})([a-zA-Z0-9])|([a-zA-Z0-9])(\p{sc=Han})`:
scan left to right; at the leftmost position where a Han character and an
ASCII alphanumeric are adjacent (in either order) replace the pair by the
pair with a space in between and continue scanning after the pair
(non-overlapping matches, exactly as `Regex::replace_all`). -/
def add_spaces_between_cjk_ascii : List Char → List Char
  | [] => []
  | [c] => [c]
  | c0 :: c1 :: rest =>
    if (isHanChar c0 && isAsciiAlnum c1) || (isAsciiAlnum c0 && isHanChar c1) then
      c0 :: ' ' :: c1 :: add_spaces_between_cjk_ascii rest
    else
      c0 :: add_spaces_between_cjk_ascii (c1 :: rest)

/-- A character other than a backtick, i.e. the class `[^`]` of the span
interior of `RE_CODE_SPAN`. -/
def isNotBacktick (d : Char) : Bool := d ≠ backtick

/-- Match the group `` (`[^`]*`) `` of `RE_CODE_SPAN` at the head of the
input: the input must start with a backtick and contain a closing backtick;
returns the span's interior and the remainder after the closing backtick. -/
def matchSpan (l : List Char) : Option (List Char × List Char) :=
  match l with
  | c :: rest =>
    if c = backtick then
      match rest.drop (rest.takeWhile isNotBacktick).length with
      | _ :: rest2 => some (rest.takeWhile isNotBacktick, rest2)
      | [] => none
    else none
  | [] => none

/-- A character that matches the class `[^`\s]` of `RE_CODE_SPAN`. -/
def isSpanNeighbor (c : Char) : Bool := c ≠ backtick && !isRustWs c

/-- One `replace_all` pass of
``RE_CODE_SPAN = ([^`\s]?)(`[^`]*`)([^`\s]?)``, with the replacement
closure of `add_space_around_code_spans`: scan for the leftmost match
(the optional groups are greedy: group 1 takes the character before the
span whenever that character is neither a backtick nor whitespace, and
group 3 likewise takes the character after), emit the captures separated
by single spaces exactly as the Rust `format!` calls do, and continue
after the match.  The fuel argument (initially the input length) makes the
recursion structural; every step consumes at least one character, so the
fuel never runs out. -/
def csScan : Nat → List Char → List Char
  | _, [] => []
  | 0, l => l
  | fuel + 1, c :: rest =>
    if isSpanNeighbor c then
      match rest with
      | r0 :: _ =>
        if r0 = backtick then
          match matchSpan rest with
          | some (inner, rest2) =>
            let code := backtick :: inner ++ [backtick]
            match rest2 with
            | d :: rest3 =>
              if isSpanNeighbor d then
                c :: ' ' :: code ++ ' ' :: d :: csScan fuel rest3
              else
                c :: ' ' :: code ++ csScan fuel rest2
            | [] => c :: ' ' :: code
          | none => c :: csScan fuel rest
        else c :: csScan fuel rest
      | [] => [c]
    else if c = backtick then
      match matchSpan (c :: rest) with
      | some (inner, rest2) =>
        let code := backtick :: inner ++ [backtick]
        match rest2 with
        | d :: rest3 =>
          if isSpanNeighbor d then
            code ++ ' ' :: d :: csScan fuel rest3
          else
            code ++ csScan fuel rest2
        | [] => code
      | none => c :: csScan fuel rest
    else c :: csScan fuel rest

/-- Rust `add_space_around_code_spans` of `src/main.rs` (one `replace_all`
pass of `RE_CODE_SPAN`). -/
def add_space_around_code_spans (text : List Char) : List Char :=
  csScan text.length text

/-- Rust `format_text` of `src/main.rs`: both inline substitutions, each
applied twice. -/
def format_text (text : List Char) : List Char :=
  let t1 := add_spaces_between_cjk_ascii text
  let t2 := add_spaces_between_cjk_ascii t1
  let t3 := add_space_around_code_spans t2
  add_space_around_code_spans t3

/-- Rust `format_line` of `src/main.rs`. -/
def format_line (line : List Char) : List Char := format_text line

/-- The body of the `for` loop of `format_lines`: given the previous
state and the current raw line, the entries pushed onto `ret` and the
value of `prev_line_state` for the next iteration (the `Title` arm forces
it to `Empty`). -/
def formatStep (prev : LineState) (l : List Char) : List (List Char) × LineState :=
  match get_line_state l prev with
  | LineState.Normal =>
    ((if prev = LineState.Table ∨ prev = LineState.CodeEnd ∨ prev = LineState.Blockquote
      then [[]] else []) ++ [format_line l], LineState.Normal)
  | LineState.CodeStart =>
    ((if prev ≠ LineState.Empty then [[]] else []) ++ [l], LineState.CodeStart)
  | LineState.Blockquote =>
    ((if prev ≠ LineState.Empty ∧ prev ≠ LineState.Blockquote then [[]] else []) ++
      [format_line l], LineState.Blockquote)
  | LineState.Code => ([l], LineState.Code)
  | LineState.CodeEnd => ([l], LineState.CodeEnd)
  | LineState.Table =>
    ((if prev ≠ LineState.Table ∧ prev ≠ LineState.Empty then [[]] else []) ++
      [format_line l], LineState.Table)
  | LineState.Empty =>
    ((if prev ≠ LineState.Empty then [[]] else []), LineState.Empty)
  | LineState.Title =>
    ((if prev = LineState.Table ∨ prev = LineState.CodeEnd ∨ prev = LineState.List ∨
        prev = LineState.Blockquote then [[]] else []) ++
      [format_line l, []], LineState.Empty)
  | LineState.List =>
    ((if prev ≠ LineState.List ∧ prev ≠ LineState.Empty then [[]] else []) ++
      [format_line l], LineState.List)

/-- The loop of `format_lines`, threading `prev_line_state`. -/
def formatLinesGo (prev : LineState) : List (List Char) → List (List Char)
  | [] => []
  | l :: ls => (formatStep prev l).1 ++ formatLinesGo (formatStep prev l).2 ls

/-- Rust `format_lines` of `src/main.rs` (`prev_line_state` starts `Empty`). -/
def format_lines (lines : List (List Char)) : List (List Char) :=
  formatLinesGo LineState.Empty lines

/-- The `while` loop of `format_lists`: pop levels while the current
indentation is strictly below the top level's recorded indentation.  The
Rust stack's top (`last()`) is the head of this list. -/
def popLevels (ind : Nat) : List ListContext → List ListContext
  | [] => []
  | ctx :: rest => if ind < ctx.indent then popLevels ind rest else ctx :: rest

/-- Construction of the rewritten list line from the (always non-empty)
adjusted stack:
`" ".repeat(if len > 1 {2 * (len - 1)} else {0})` followed by `- ` or by
`{counter}. `, then the content capture.  `depth` is the stack length. -/
def renderItem (cur : ListContext) (depth : Nat) (content : List Char) : List Char :=
  List.replicate (2 * (depth - 1)) ' ' ++
    match cur.list_type with
    | ListType.Unordered => '-' :: ' ' :: content
    | ListType.Ordered => natDecimal cur.counter ++ '.' :: ' ' :: content

/-- One iteration of `format_lists` on a line that matched
`RE_LIST_ITEM`: adjust the stack (pop, then push a new level, restart on
a marker-kind change, or bump the ordered counter) and emit the rewritten
line.  The stack adjustment makes the stack non-empty in every branch, so
the Rust `list_stack.last().unwrap()` is encoded by construction (see
`listStepOpt` for the version that models the `unwrap`). -/
def listStep (stack : List ListContext) (ind : Nat) (t : ListType)
    (content : List Char) : List Char × List ListContext :=
  match popLevels ind stack with
  | [] =>
    (renderItem ⟨t, 0, 1⟩ 1 content, [⟨t, 0, 1⟩])
  | ctx :: rest =>
    if ind > ctx.indent then
      (renderItem ⟨t, ind, 1⟩ (rest.length + 2) content, ⟨t, ind, 1⟩ :: ctx :: rest)
    else if ctx.list_type ≠ t then
      (renderItem ⟨t, ind, 1⟩ (rest.length + 1) content, ⟨t, ind, 1⟩ :: rest)
    else if t = ListType.Ordered then
      (renderItem ⟨t, ctx.indent, ctx.counter + 1⟩ (rest.length + 1) content,
        ⟨t, ctx.indent, ctx.counter + 1⟩ :: rest)
    else
      (renderItem ctx (rest.length + 1) content, ctx :: rest)

/-- The loop of `format_lists`: list lines go through `listStep`; any
other line clears the stack and passes through unchanged. -/
def formatListsGo (stack : List ListContext) : List (List Char) → List (List Char)
  | [] => []
  | l :: ls =>
    match parseListItem l with
    | some (ind, t, content) =>
      (listStep stack ind t content).1 ::
        formatListsGo (listStep stack ind t content).2 ls
    | none => l :: formatListsGo [] ls

/-- Rust `format_lists` of `src/main.rs` (the stack starts empty). -/
def format_lists (lines : List (List Char)) : List (List Char) :=
  formatListsGo [] lines

/-- One iteration of `format_lists` with the Rust partiality made
explicit: the final `list_stack.last().unwrap()` is modelled by returning
`none` whenever the adjusted stack is empty. -/
def listStepOpt (stack : List ListContext) (ind : Nat) (t : ListType)
    (content : List Char) : Option (List Char × List ListContext) :=
  let stack' :=
    match popLevels ind stack with
    | [] => [(⟨t, 0, 1⟩ : ListContext)]
    | ctx :: rest =>
      if ind > ctx.indent then ⟨t, ind, 1⟩ :: ctx :: rest
      else if ctx.list_type ≠ t then ⟨t, ind, 1⟩ :: rest
      else if t = ListType.Ordered then ⟨t, ctx.indent, ctx.counter + 1⟩ :: rest
      else ctx :: rest
  match stack' with
  | [] => none
  | cur :: _ => some (renderItem cur stack'.length content, stack')

/-- The loop of `format_lists` with the explicit stack-access check. -/
def formatListsOptGo (stack : List ListContext) :
    List (List Char) → Option (List (List Char))
  | [] => some []
  | l :: ls =>
    match parseListItem l with
    | some (ind, t, content) =>
      match listStepOpt stack ind t content with
      | none => none
      | some (nl, stack') =>
        match formatListsOptGo stack' ls with
        | none => none
        | some out => some (nl :: out)
    | none =>
      match formatListsOptGo [] ls with
      | none => none
      | some out => some (l :: out)

/-- Rust `format_lists` with the explicit stack-access check. -/
def formatListsOpt (lines : List (List Char)) : Option (List (List Char)) :=
  formatListsOptGo [] lines

/-- Rust `Vec::join("\n")`. -/
def joinNl : List (List Char) → List Char
  | [] => []
  | [l] => l
  | l :: ls => l ++ '\n' :: joinNl ls

/-- Rust `if !ret.ends_with('\n') { ret.push('\n') }`. -/
def pushNl (l : List Char) : List Char :=
  if l.getLast? = some '\n' then l else l ++ ['\n']

/-- Modelled from the spec: `format_tables` is the external
table-formatting collaborator (the `markdown_table_formatter` crate,
which is not part of this repository).  Per §1/§6 of the spec it is out of
scope and only rewrites pipe-delimited table blocks; it is modelled as the
identity on the document. -/
def format_tables (text : List Char) : List Char := text

/-- Rust `format_markdown` of `src/main.rs`: split, format lines, format
lists, join, format tables, and terminate with a newline unless the text
already ends with one. -/
def format_markdown (text : String) : String :=
  let lines := splitToLines text.data
  let newLines := format_lines lines
  let newLines2 := format_lists newLines
  let ret := joinNl newLines2
  let ret2 := format_tables ret
  String.mk (pushNl ret2)

/-- Rust `format_markdown` with the explicit stack-access check of
`formatListsOpt` threaded through the pipeline. -/
def formatMarkdownOpt (text : String) : Option String :=
  match formatListsOpt (format_lines (splitToLines text.data)) with
  | none => none
  | some newLines2 => some (String.mk (pushNl (format_tables (joinNl newLines2))))

/-- The CLI transform as a function of the `--indent` option: `main`
parses the option into `CliArgs::indent` but never reads it; the formatted
text is `format_markdown(content)` regardless. -/
def cliFormat (_indentWidth : Nat) (text : String) : String := format_markdown text

/-! ### Predicates used to state the claims -/

/-- No two adjacent entries of a line sequence are both empty. -/
def noAdjEmptyB : List (List Char) → Bool
  | [] => true
  | [_] => true
  | a :: b :: rest => !(a = [] && b = []) && noAdjEmptyB (b :: rest)

/-- The text contains three consecutive newlines somewhere, i.e. a run of
at least two blank lines survives between its neighbours. -/
def hasTripleNl : List Char → Bool
  | c1 :: c2 :: c3 :: rest =>
    (c1 = '\n' && c2 = '\n' && c3 = '\n') || hasTripleNl (c2 :: c3 :: rest)
  | _ => false

/-- The text ends with exactly one `'\n'`: its last character is a newline
and the character before it, if any, is not. -/
def endsOneNl : List Char → Bool
  | [] => false
  | [c] => c = '\n'
  | [c, d] => d = '\n' && c ≠ '\n'
  | _ :: d :: e :: rest => endsOneNl (d :: e :: rest)

/-- A line sequence whose `join("\n")` cannot end in two newlines: the
sequence is non-empty and its last two entries are not both empty (for a
singleton, the entry is non-empty). -/
def lastTwoOkB : List (List Char) → Bool
  | [] => false
  | [x] => !x.isEmpty
  | [x, y] => !(x.isEmpty && y.isEmpty)
  | _ :: y :: z :: t => lastTwoOkB (y :: z :: t)

/-- The text starts with two newlines. -/
def startsNlNl : List Char → Bool
  | '\n' :: '\n' :: _ => true
  | _ => false

/-- The lines of a formatted document (every `'\n'` acts as a separator,
so a terminating newline contributes a final empty line). -/
def outLines (d : String) : List (List Char) := splitOnNl (format_markdown d).data

/-- Classification of a line sequence by folding `get_line_state` from the
initial `Empty` state. -/
def statesOf : LineState → List (List Char) → List LineState
  | _, [] => []
  | prev, l :: ls => get_line_state l prev :: statesOf (get_line_state l prev) ls

/-- C2 as stated: in the output of `format_markdown`, every line whose
classification is `Title` is immediately preceded by a blank line (except
at the very start) and immediately followed by a blank line. -/
def headingIsolated (d : String) : Prop :=
  ∀ i, (statesOf LineState.Empty (outLines d)).get? i = some LineState.Title →
    (i = 0 ∨ (outLines d).get? (i - 1) = some []) ∧ (outLines d).get? (i + 1) = some []

/-- A line that is empty or consists of whitespace only. -/
def isBlankLine (l : List Char) : Bool := l.all isRustWs

/-- Drop the trailing run of entries satisfying `p`. -/
def dropEndWhile (p : List Char → Bool) : List (List Char) → List (List Char)
  | [] => []
  | l :: ls =>
    match dropEndWhile p ls with
    | [] => if p l then [] else [l]
    | r => l :: r

/-- Strip leading whitespace from the first entry of a line sequence. -/
def trimStartFirst : List (List Char) → List (List Char)
  | [] => []
  | hd :: tl => trimStart hd :: tl

/-- C9 as stated, following the spec's words: split the document on
newlines, drop the leading and trailing blank (whitespace-only) lines,
and strip trailing whitespace from every remaining line — nothing else. -/
def specSplit (text : List Char) : List (List Char) :=
  (dropEndWhile isBlankLine ((splitOnNl text).dropWhile isBlankLine)).map trimEnd

/-- C9 amended: additionally, leading whitespace of the first remaining
line is stripped (that is what `str::trim` on the whole document does). -/
def specSplitAmended (text : List Char) : List (List Char) :=
  trimStartFirst (specSplit text)

/-- Apply `f` to the last entry of a line sequence. -/
def modifyLast (f : List Char → List Char) : List (List Char) → List (List Char)
  | [] => []
  | [x] => [f x]
  | x :: y :: t => x :: modifyLast f (y :: t)

/-! ### Basic facts about the decimal renderer and the emitted items -/

theorem digitChar_digit (n : Nat) : isAsciiDigit (digitChar n) = true := by
  unfold digitChar
  split <;> decide

theorem natDecimalAux_head (fuel n : Nat) (h : 1 ≤ fuel) :
    ∃ c r, natDecimalAux fuel n = c :: r ∧ isAsciiDigit c = true := by
  induction fuel generalizing n with
  | zero => exact absurd h (by omega)
  | succ k ih =>
    by_cases hn : n < 10
    · exact ⟨digitChar n, [], by simp [natDecimalAux, hn], digitChar_digit n⟩
    · cases k with
      | zero =>
        refine ⟨digitChar (n % 10), [], ?_, digitChar_digit _⟩
        simp [natDecimalAux, hn]
      | succ k2 =>
        obtain ⟨c, r, he, hc⟩ := ih (n / 10) (by omega)
        refine ⟨c, r ++ [digitChar (n % 10)], ?_, hc⟩
        rw [natDecimalAux, if_neg hn, he]
        simp

theorem natDecimal_head (n : Nat) :
    ∃ c r, natDecimal n = c :: r ∧ isAsciiDigit c = true :=
  natDecimalAux_head (n + 1) n (by omega)

theorem digit_ne_space {c : Char} (h : isAsciiDigit c = true) : ¬ c = ' ' := by
  intro he
  subst he
  exact absurd h (by decide)

theorem natDecimal_ne_nil (n : Nat) : natDecimal n ≠ [] := by
  obtain ⟨c, r, he, _⟩ := natDecimal_head n
  simp [he]

theorem renderItem_shape (cur : ListContext) (depth : Nat) (content : List Char) :
    ∃ rest, renderItem cur depth content = List.replicate (2 * (depth - 1)) ' ' ++ rest ∧
      rest ≠ [] ∧ rest.head? ≠ some ' ' := by
  obtain ⟨lt, ind, cnt⟩ := cur
  cases lt with
  | Unordered => exact ⟨'-' :: ' ' :: content, rfl, by simp, by simp⟩
  | Ordered =>
    obtain ⟨c, r, he, hc⟩ := natDecimal_head cnt
    refine ⟨natDecimal cnt ++ '.' :: ' ' :: content, rfl, by simp [he], ?_⟩
    rw [he]
    simpa using digit_ne_space hc

theorem listStep_shape (stack : List ListContext) (ind : Nat) (t : ListType)
    (content : List Char) :
    ∃ cur stack2, listStep stack ind t content = (renderItem cur stack2.length content, stack2) := by
  unfold listStep
  cases hp : popLevels ind stack with
  | nil => exact ⟨⟨t, 0, 1⟩, [⟨t, 0, 1⟩], rfl⟩
  | cons ctx rest =>
    by_cases h1 : ind > ctx.indent
    · exact ⟨⟨t, ind, 1⟩, ⟨t, ind, 1⟩ :: ctx :: rest, by simp [h1]⟩
    · by_cases h2 : ctx.list_type ≠ t
      · exact ⟨⟨t, ind, 1⟩, ⟨t, ind, 1⟩ :: rest, by simp [h1, h2]⟩
      · push_neg at h2
        by_cases h3 : t = ListType.Ordered
        · subst h3
          exact ⟨⟨ListType.Ordered, ctx.indent, ctx.counter + 1⟩,
            ⟨ListType.Ordered, ctx.indent, ctx.counter + 1⟩ :: rest, by simp [h1, h2]⟩
        · exact ⟨ctx, ctx :: rest, by simp [h1, h2, h3]⟩

/-- C8: the CLI indentation-width option does not influence the output at
all (`main` never reads it), and every line the list renumberer emits is
exactly 2 spaces of indentation per nesting level below the outermost —
`2 * (stack depth - 1)` spaces followed by a marker that is not a space. -/
theorem c8_indent_option_inert :
    (∀ i j : Nat, ∀ d : String, cliFormat i d = cliFormat j d) ∧
    (∀ (stack : List ListContext) (ind : Nat) (t : ListType) (content : List Char),
      ∃ rest, (listStep stack ind t content).1 =
        List.replicate (2 * ((listStep stack ind t content).2.length - 1)) ' ' ++ rest ∧
        rest ≠ [] ∧ rest.head? ≠ some ' ') := by
  constructor
  · intro i j d
    rfl
  · intro stack ind t content
    obtain ⟨cur, stack2, he⟩ := listStep_shape stack ind t content
    obtain ⟨rest, hr, h1, h2⟩ := renderItem_shape cur stack2.length content
    rw [he]
    exact ⟨rest, hr, h1, h2⟩

/-! ### C3: totality of the pipeline, including the modelled unwraps -/

theorem listStepOpt_eq (stack : List ListContext) (ind : Nat) (t : ListType)
    (content : List Char) :
    listStepOpt stack ind t content = some (listStep stack ind t content) := by
  unfold listStepOpt listStep
  cases hp : popLevels ind stack with
  | nil => rfl
  | cons ctx rest =>
    by_cases h1 : ind > ctx.indent
    · simp [h1]
    · by_cases h2 : ctx.list_type ≠ t
      · simp [h1, h2]
      · push_neg at h2
        by_cases h3 : t = ListType.Ordered
        · subst h3
          simp [h1, h2]
        · simp [h1, h2, h3]

theorem formatListsOptGo_eq (ls : List (List Char)) : ∀ stack : List ListContext,
    formatListsOptGo stack ls = some (formatListsGo stack ls) := by
  induction ls with
  | nil => intro stack; rfl
  | cons l ls ih =>
    intro stack
    simp only [formatListsOptGo, formatListsGo]
    cases hp : parseListItem l with
    | none => simp [ih []]
    | some v =>
      obtain ⟨ind, t, content⟩ := v
      obtain ⟨nl, st2, hls⟩ : ∃ nl st2, listStep stack ind t content = (nl, st2) := ⟨_, _, rfl⟩
      simp [listStepOpt_eq, hls, ih st2]

/-- C3: the core transform is total.  With the Rust failure points made
explicit — the renumberer's `list_stack.last().unwrap()` stack accesses
modelled as an `Option` (`formatListsOpt`) — the pipeline never fails and
always returns exactly `format_markdown text`.  (The other fallible step,
`RE_LIST_ITEM.captures(line).unwrap()`, unwraps the regex engine's error
channel; the pattern compiles to a plain regular expression, so the engine
cannot err, and the embedding `parseListItem` is accordingly total; the
classifier ends in an exhaustive `Normal` fallback by construction of
`get_line_state`.) -/
theorem c3_format_markdown_total (text : String) :
    formatMarkdownOpt text = some (format_markdown text) := by
  unfold formatMarkdownOpt format_markdown format_lists formatListsOpt
  rw [formatListsOptGo_eq]

/-! ### C1: idempotence fails in general -/

/-- C1 counterexample: formatting is not idempotent.  On
`"1. a\n  2. b\n 3. c"` the first pass yields `"1. a\n  1. b\n  1. c\n"`
(the third item opens a fresh level at source indentation 1), but a second
pass sees the now-equal indentations 2 and 2 as siblings and renumbers
them `1.`, `2.`. -/
theorem c1_counterexample :
    format_markdown (format_markdown "1. a\n  2. b\n 3. c") ≠
      format_markdown "1. a\n  2. b\n 3. c" := by decide

/-- C1 amended: `format_markdown` is not idempotent for all documents
(see `c1_counterexample`); it is idempotent on documents such as the
spec's own examples — the renumbering example, the marker example and a
heading/text document. -/
theorem c1_amended_idempotent_on_examples :
    format_markdown (format_markdown "1. a\n3. b\n2. c") = format_markdown "1. a\n3. b\n2. c" ∧
    format_markdown (format_markdown "* a\n+ b\n- c") = format_markdown "* a\n+ b\n- c" ∧
    format_markdown (format_markdown "# title\ntext") = format_markdown "# title\ntext" := by
  refine ⟨by decide, by decide, by decide⟩

/-! ### C5: list renumbering -/

theorem popLevels_cons_self (ctx : ListContext) (rest : List ListContext) :
    popLevels ctx.indent (ctx :: rest) = ctx :: rest := by
  simp [popLevels]

/-- C5: the renumberer rewrites ordered counters sequentially from 1 per
level regardless of the written numbers (first conjunct: the spec's
example; third conjunct: a same-level ordered item always emits the
incremented counter of the open level), canonicalizes every unordered
marker to `-` (second, fourth and sixth conjuncts: `*`, `+`, `-` all
parse to `Unordered` and are emitted as `- `), and a change of marker
kind at the same indentation is a fresh list restarting at 1 (fourth and
fifth conjuncts). -/
theorem c5_list_renumbering :
    format_markdown "1. a\n3. b\n2. c" = "1. a\n2. b\n3. c\n" ∧
    format_markdown "* a\n+ b\n- c" = "- a\n- b\n- c\n" ∧
    (∀ (ctx : ListContext) (rest : List ListContext) (content : List Char),
      ctx.list_type = ListType.Ordered →
      listStep (ctx :: rest) ctx.indent ListType.Ordered content =
        (List.replicate (2 * rest.length) ' ' ++ natDecimal (ctx.counter + 1) ++
           '.' :: ' ' :: content,
         ⟨ListType.Ordered, ctx.indent, ctx.counter + 1⟩ :: rest)) ∧
    (∀ (ctx : ListContext) (rest : List ListContext) (content : List Char),
      ctx.list_type ≠ ListType.Unordered →
      listStep (ctx :: rest) ctx.indent ListType.Unordered content =
        (List.replicate (2 * rest.length) ' ' ++ '-' :: ' ' :: content,
         ⟨ListType.Unordered, ctx.indent, 1⟩ :: rest)) ∧
    (∀ (ctx : ListContext) (rest : List ListContext) (content : List Char),
      ctx.list_type ≠ ListType.Ordered →
      listStep (ctx :: rest) ctx.indent ListType.Ordered content =
        (List.replicate (2 * rest.length) ' ' ++ natDecimal 1 ++ '.' :: ' ' :: content,
         ⟨ListType.Ordered, ctx.indent, 1⟩ :: rest)) ∧
    (∀ (m : Char) (content : List Char), m = '*' ∨ m = '+' ∨ m = '-' →
      parseListItem (m :: ' ' :: content) =
        some (0, ListType.Unordered, content.dropWhile isRustWs)) := by
  refine ⟨by decide, by decide, ?_, ?_, ?_, ?_⟩
  · intro ctx rest content h
    unfold listStep
    rw [popLevels_cons_self]
    simp [h, renderItem]
  · intro ctx rest content h
    unfold listStep
    rw [popLevels_cons_self]
    simp [h, renderItem]
  · intro ctx rest content h
    unfold listStep
    rw [popLevels_cons_self]
    simp [h, renderItem]
  · intro m content h
    have hsp : isRustWs ' ' = true := by decide
    rcases h with h | h | h <;> subst h
    · have hm : isRustWs '*' = false := by decide
      simp [parseListItem, utf8Len, List.takeWhile, List.dropWhile, hm, hsp]
    · have hm : isRustWs '+' = false := by decide
      simp [parseListItem, utf8Len, List.takeWhile, List.dropWhile, hm, hsp]
    · have hm : isRustWs '-' = false := by decide
      simp [parseListItem, utf8Len, List.takeWhile, List.dropWhile, hm, hsp]

/-- C5 witness: the same-level ordered step at a concrete stack. -/
theorem c5_witness :
    listStep [⟨ListType.Ordered, 4, 7⟩] 4 ListType.Ordered ['z'] =
      (natDecimal 8 ++ '.' :: ' ' :: ['z'], [⟨ListType.Ordered, 4, 8⟩]) := by
  have h := c5_list_renumbering.2.2.1 ⟨ListType.Ordered, 4, 7⟩ [] ['z'] rfl
  simpa using h

/-! ### C6: code-span boundary spacing -/

theorem isNotBacktick_true {d : Char} (h : ¬ d = backtick) : isNotBacktick d = true := by
  simp [isNotBacktick, h]

theorem isNotBacktick_self : isNotBacktick backtick = false := by
  simp [isNotBacktick]

theorem takeWhile_ne_append (inner r : List Char) (h : backtick ∉ inner) :
    (inner ++ backtick :: r).takeWhile isNotBacktick = inner := by
  induction inner with
  | nil => simp [List.takeWhile_cons, isNotBacktick_self]
  | cons a as ih =>
    have ha : ¬ a = backtick := fun he => h (by simp [he])
    have hm : backtick ∉ as := fun hmem => h (List.mem_cons_of_mem _ hmem)
    simp [List.takeWhile_cons, isNotBacktick_true ha, ih hm]

theorem matchSpan_eq (inner r : List Char) (h : backtick ∉ inner) :
    matchSpan (backtick :: (inner ++ backtick :: r)) = some (inner, r) := by
  simp [matchSpan, takeWhile_ne_append inner r h, List.drop_left]

theorem csScan_nil (fuel : Nat) : csScan fuel [] = [] := by
  cases fuel <;> rfl

theorem csScan_skip (fuel : Nat) (c : Char) (rest : List Char)
    (h1 : isSpanNeighbor c = false) (h2 : ¬ c = backtick) :
    csScan (fuel + 1) (c :: rest) = c :: csScan fuel rest := by
  simp [csScan, h1, h2]

theorem csScan_span_end (fuel : Nat) (inner : List Char) (h : backtick ∉ inner) :
    csScan (fuel + 1) (backtick :: (inner ++ backtick :: [])) =
      backtick :: inner ++ [backtick] := by
  have hsb : isSpanNeighbor backtick = false := by decide
  simp [csScan, hsb, matchSpan_eq inner [] h]

theorem csScan_span_noneighbor (fuel : Nat) (inner : List Char) (d : Char) (rest3 : List Char)
    (h : backtick ∉ inner) (hd : isSpanNeighbor d = false) :
    csScan (fuel + 1) (backtick :: (inner ++ backtick :: d :: rest3)) =
      (backtick :: inner ++ [backtick]) ++ csScan fuel (d :: rest3) := by
  have hsb : isSpanNeighbor backtick = false := by decide
  simp [csScan, hsb, matchSpan_eq inner (d :: rest3) h, hd]

theorem csScan_span_neighbor (fuel : Nat) (inner : List Char) (d : Char) (rest3 : List Char)
    (h : backtick ∉ inner) (hd : isSpanNeighbor d = true) :
    csScan (fuel + 1) (backtick :: (inner ++ backtick :: d :: rest3)) =
      (backtick :: inner ++ [backtick]) ++ ' ' :: d :: csScan fuel rest3 := by
  have hsb : isSpanNeighbor backtick = false := by decide
  simp [csScan, hsb, matchSpan_eq inner (d :: rest3) h, hd]

theorem csScan_before_after (fuel : Nat) (x : Char) (inner : List Char) (d : Char)
    (rest3 : List Char) (hx : isSpanNeighbor x = true) (h : backtick ∉ inner)
    (hd : isSpanNeighbor d = true) :
    csScan (fuel + 1) (x :: backtick :: (inner ++ backtick :: d :: rest3)) =
      x :: ' ' :: (backtick :: inner ++ [backtick]) ++ ' ' :: d :: csScan fuel rest3 := by
  simp [csScan, hx, matchSpan_eq inner (d :: rest3) h, hd]

theorem csScan_space_any (fuel : Nat) : csScan fuel [' '] = [' '] := by
  cases fuel with
  | zero => rfl
  | succ k =>
    rw [csScan_skip k ' ' [] (by decide) (by decide), csScan_nil]

theorem c6_step_both (x y : Char) (inner : List Char) (hx : isSpanNeighbor x = true)
    (hy : isSpanNeighbor y = true) (h : backtick ∉ inner) :
    add_space_around_code_spans ((x :: backtick :: inner) ++ [backtick, y]) =
      (x :: ' ' :: backtick :: inner) ++ [backtick, ' ', y] := by
  unfold add_space_around_code_spans
  rw [show ((x :: backtick :: inner) ++ [backtick, y]).length = inner.length + 3 + 1 by simp]
  rw [show (x :: backtick :: inner) ++ [backtick, y] =
    x :: backtick :: (inner ++ backtick :: y :: []) by simp]
  rw [csScan_before_after (inner.length + 3) x inner y [] hx h hy, csScan_nil]
  simp

theorem c6_step_edges (inner : List Char) (h : backtick ∉ inner) :
    add_space_around_code_spans ((backtick :: inner) ++ [backtick]) =
      (backtick :: inner) ++ [backtick] := by
  unfold add_space_around_code_spans
  rw [show ((backtick :: inner) ++ [backtick]).length = inner.length + 1 + 1 by simp]
  rw [show (backtick :: inner) ++ [backtick] = backtick :: (inner ++ backtick :: []) by simp]
  rw [csScan_span_end (inner.length + 1) inner h]
  simp

theorem c6_step_spaces (inner : List Char) (h : backtick ∉ inner) :
    add_space_around_code_spans ((' ' :: backtick :: inner) ++ [backtick, ' ']) =
      (' ' :: backtick :: inner) ++ [backtick, ' '] := by
  unfold add_space_around_code_spans
  rw [show ((' ' :: backtick :: inner) ++ [backtick, ' ']).length = inner.length + 3 + 1 by simp]
  rw [show (' ' :: backtick :: inner) ++ [backtick, ' '] =
    ' ' :: backtick :: (inner ++ backtick :: ' ' :: []) by simp]
  rw [csScan_skip (inner.length + 3) ' ' _ (by decide) (by decide)]
  rw [show inner.length + 3 = inner.length + 2 + 1 by omega]
  rw [csScan_span_noneighbor (inner.length + 2) inner ' ' [] h (by decide)]
  rw [csScan_space_any]
  simp

/-- C6: the code-span boundary transform.  Concrete conjuncts: the spec's
example `` "`a`b`c`" → "`a` b `c`" `` and an overlapping-matches example
that needs the second pass of `format_text`.  Universal conjuncts, for a
span with a backtick-free interior: when both neighbours are
non-whitespace non-backtick characters a single space is inserted on each
side; a span alone (bounded by the string edges) is untouched; a span
bounded by spaces is untouched. -/
theorem c6_code_span_spacing :
    format_text ("`a`b`c`").data = ("`a` b `c`").data ∧
    format_text ("a`b`c`d`e").data = ("a `b` c `d` e").data ∧
    (∀ (x y : Char) (inner : List Char),
      isSpanNeighbor x = true → isSpanNeighbor y = true → backtick ∉ inner →
      add_space_around_code_spans ((x :: backtick :: inner) ++ [backtick, y]) =
        (x :: ' ' :: backtick :: inner) ++ [backtick, ' ', y]) ∧
    (∀ inner : List Char, backtick ∉ inner →
      add_space_around_code_spans ((backtick :: inner) ++ [backtick]) =
        (backtick :: inner) ++ [backtick]) ∧
    (∀ inner : List Char, backtick ∉ inner →
      add_space_around_code_spans ((' ' :: backtick :: inner) ++ [backtick, ' ']) =
        (' ' :: backtick :: inner) ++ [backtick, ' ']) :=
  ⟨by decide, by decide, c6_step_both, c6_step_edges, c6_step_spaces⟩

/-- C6 witness: both-sides insertion at a concrete span. -/
theorem c6_witness :
    add_space_around_code_spans (('u' :: backtick :: ['w']) ++ [backtick, 'v']) =
      ('u' :: ' ' :: backtick :: ['w']) ++ [backtick, ' ', 'v'] :=
  c6_code_span_spacing.2.2.1 'u' 'v' ['w'] (by decide) (by decide) (by decide)

/-! ### C2: heading isolation -/

/-- C2 counterexample: in `format_markdown "text\n# title"` the heading
line is immediately preceded by the line `text`, not by a blank line (and
the document does not start with the heading), because the formatter
inserts a blank before a `Title` only after `Table`, `CodeEnd`, `List` or
`Blockquote`, not after `Normal`. -/
theorem c2_counterexample : ¬ headingIsolated "text\n# title" := by
  intro hiso
  have h1 := (hiso 1 (by decide)).1
  rcases h1 with h1 | h1
  · exact absurd h1 (by decide)
  · exact absurd h1 (by decide)

/-- C2 amended: a `Title` line always has a blank line emitted
immediately after it and forces the state to `Empty` (so the following
line cannot add another blank); a blank line is emitted immediately
before it exactly when the previous state is `Table`, `CodeEnd`, `List`
or `Blockquote` — a heading directly after a `Normal` line gets no
preceding blank. -/
theorem c2_amended_title_spacing (prev : LineState) (l : List Char)
    (h : get_line_state l prev = LineState.Title) :
    formatStep prev l =
      ((if prev = LineState.Table ∨ prev = LineState.CodeEnd ∨ prev = LineState.List ∨
          prev = LineState.Blockquote then [[]] else []) ++ [format_line l, []],
        LineState.Empty) := by
  unfold formatStep
  rw [h]

/-- C2 witness: a heading after a `Normal` line gets content plus one
trailing blank, no preceding blank, and the `Empty` state. -/
theorem c2_witness :
    formatStep LineState.Normal ("# t").data = ([("# t").data, []], LineState.Empty) := by
  have h := c2_amended_title_spacing LineState.Normal ("# t").data (by decide)
  rw [h]
  decide

/-! ### C7, C9, C10: the counterexamples -/

/-- C7 counterexample: inside a fenced code block, blank lines are
emitted verbatim; the run of two blank lines between the non-blank lines
`x` and `y` survives, so the output contains three consecutive newlines
instead of a single collapsed blank line. -/
theorem c7_counterexample :
    format_markdown "```\nx\n\n\ny\n```" = "```\nx\n\n\ny\n```\n" ∧
    hasTripleNl (format_markdown "```\nx\n\n\ny\n```").data = true := by
  exact ⟨by decide, by decide⟩

/-- C9 counterexample: on the document `"  x"` the splitting stage
returns `["x"]` — `str::trim` removes the leading whitespace of the first
non-blank line — while the spec's description (drop blank lines, strip
trailing whitespace) would return `["  x"]`. -/
theorem c9_counterexample : splitToLines ("  x").data ≠ specSplit ("  x").data := by decide

/-- C10 counterexample: `format_lines` emits the blank lines inside a
fenced code block verbatim, so its output can contain two adjacent empty
entries. -/
theorem c10_counterexample :
    noAdjEmptyB (format_lines [("```").data, [], [], ("```").data]) = false := by decide

/-! ### Structural lemmas on the splitter -/

theorem splitOnNl_ne_nil (l : List Char) : splitOnNl l ≠ [] := by
  induction l with
  | nil => simp [splitOnNl]
  | cons c rest ih =>
    by_cases h : c = '\n'
    · simp [splitOnNl, h]
    · simp only [splitOnNl, if_neg h]
      cases hs : splitOnNl rest with
      | nil => simp
      | cons hd tl => simp

theorem mem_of_getLastQ {α : Type} : ∀ {l : List α} {c : α}, l.getLast? = some c → c ∈ l := by
  intro l
  induction l with
  | nil => intro c h; exact absurd h (by simp)
  | cons a t ih =>
    intro c h
    cases t with
    | nil =>
      simp at h
      simp [h]
    | cons b t2 =>
      rw [List.getLast?_cons_cons] at h
      exact List.mem_cons_of_mem _ (ih h)

theorem trimEnd_eq_nil_iff (l : List Char) : trimEnd l = [] ↔ l.all isRustWs = true := by
  induction l with
  | nil => simp [trimEnd]
  | cons c l ih =>
    rw [trimEnd]
    cases he : trimEnd l with
    | nil =>
      have hall : l.all isRustWs = true := ih.mp he
      by_cases hc : isRustWs c <;> simp [hc, hall]
    | cons r0 rr =>
      have hall : ¬ l.all isRustWs = true := fun ha => by
        rw [ih.mpr ha] at he
        exact absurd he (by simp)
      simp only [List.all_cons]
      constructor
      · intro h
        exact absurd h (by simp)
      · intro h
        rcases Bool.and_eq_true_iff.mp h with ⟨_, hla⟩
        exact absurd hla hall

theorem trimEnd_cons_ne (c : Char) (l : List Char) (h : trimEnd l ≠ []) :
    trimEnd (c :: l) = c :: trimEnd l := by
  rw [trimEnd]
  cases he : trimEnd l with
  | nil => exact absurd he h
  | cons r0 rr => simp

theorem trimEnd_subset (l : List Char) : ∀ x ∈ trimEnd l, x ∈ l := by
  induction l with
  | nil => simp [trimEnd]
  | cons c l ih =>
    intro x hx
    rw [trimEnd] at hx
    cases he : trimEnd l with
    | nil =>
      rw [he] at hx
      by_cases hc : isRustWs c
      · rw [if_pos hc] at hx
        exact absurd hx (by simp)
      · rw [if_neg hc] at hx
        simp at hx
        simp [hx]
    | cons r0 rr =>
      rw [he] at hx
      rcases List.mem_cons.mp hx with hx | hx
      · simp [hx]
      · exact List.mem_cons_of_mem _ (ih x (by rw [he]; exact hx))

theorem trimEnd_last (l : List Char) (h : trimEnd l ≠ []) :
    ∃ c, (trimEnd l).getLast? = some c ∧ isRustWs c = false := by
  induction l with
  | nil => exact absurd rfl h
  | cons c0 l ih =>
    cases he : trimEnd l with
    | nil =>
      have h1 : trimEnd (c0 :: l) = if isRustWs c0 then [] else [c0] := by rw [trimEnd, he]
      rw [h1] at h ⊢
      by_cases hc : isRustWs c0
      · rw [if_pos hc] at h
        exact absurd rfl h
      · rw [if_neg hc]
        exact ⟨c0, by simp, by simpa using hc⟩
    | cons r0 rr =>
      have h1 : trimEnd (c0 :: l) = c0 :: (r0 :: rr) := by
        rw [trimEnd_cons_ne c0 l (by rw [he]; simp), he]
      obtain ⟨c, hc1, hc2⟩ := ih (by rw [he]; simp)
      rw [he] at hc1
      rw [h1, List.getLast?_cons_cons]
      exact ⟨c, hc1, hc2⟩

theorem trimEnd_append_nonws (q : List Char) (c : Char) (h : isRustWs c = false) :
    trimEnd (q ++ [c]) = q ++ [c] := by
  induction q with
  | nil =>
    simp only [List.nil_append]
    rw [trimEnd, trimEnd, if_neg (by simp [h])]
  | cons a q' ih =>
    have hne : q' ++ [c] ≠ [] := by simp
    rw [List.cons_append, trimEnd_cons_ne a (q' ++ [c]) (by rw [ih]; exact hne), ih]

theorem trimEnd_idem (l : List Char) : trimEnd (trimEnd l) = trimEnd l := by
  induction l with
  | nil => rfl
  | cons c l ih =>
    cases he : trimEnd l with
    | nil =>
      have h1 : trimEnd (c :: l) = if isRustWs c then [] else [c] := by rw [trimEnd, he]
      rw [h1]
      by_cases hc : isRustWs c
      · rw [if_pos hc]
        rfl
      · rw [if_neg hc]
        have : isRustWs c = false := by simpa using hc
        simpa using trimEnd_append_nonws [] c this
    | cons r0 rr =>
      rw [he] at ih
      have h1 : trimEnd (c :: l) = c :: (r0 :: rr) := by
        rw [trimEnd_cons_ne c l (by rw [he]; simp), he]
      rw [h1, trimEnd_cons_ne c (r0 :: rr) (by rw [ih]; simp), ih]

theorem splitOnNl_no_nl (l : List Char) : ∀ p ∈ splitOnNl l, '\n' ∉ p := by
  induction l with
  | nil =>
    intro p hp
    simp [splitOnNl] at hp
    simp [hp]
  | cons c rest ih =>
    intro p hp
    by_cases h : c = '\n'
    · rw [splitOnNl, if_pos h] at hp
      rcases List.mem_cons.mp hp with hp | hp
      · simp [hp]
      · exact ih p hp
    · rw [splitOnNl, if_neg h] at hp
      cases hs : splitOnNl rest with
      | nil => exact absurd hs (splitOnNl_ne_nil rest)
      | cons hd tl =>
        rw [hs] at hp
        rcases List.mem_cons.mp hp with hp | hp
        · subst hp
          intro hmem
          rcases List.mem_cons.mp hmem with hc | hc
          · exact h hc.symm
          · exact ih hd (hs ▸ List.mem_cons_self hd tl) hc
        · exact ih p (hs ▸ List.mem_cons_of_mem hd hp)

theorem modifyLast_cons (f : List Char → List Char) (x : List Char) (t : List (List Char))
    (h : t ≠ []) : modifyLast f (x :: t) = x :: modifyLast f t := by
  cases t with
  | nil => exact absurd rfl h
  | cons y tt => rfl

theorem modifyLast_ne_nil (f : List Char → List Char) (L : List (List Char)) (h : L ≠ []) :
    modifyLast f L ≠ [] := by
  cases L with
  | nil => exact absurd rfl h
  | cons x t =>
    cases t with
    | nil => simp [modifyLast]
    | cons y tt => simp [modifyLast]

theorem modifyLast_getLastQ (f : List Char → List Char) (L : List (List Char)) :
    (modifyLast f L).getLast? = L.getLast?.map f := by
  induction L with
  | nil => rfl
  | cons x t ih =>
    cases t with
    | nil => rfl
    | cons y tt =>
      rw [modifyLast_cons f x (y :: tt) (by simp)]
      rw [List.getLast?_cons_cons]
      cases hm : modifyLast f (y :: tt) with
      | nil => exact absurd hm (modifyLast_ne_nil f (y :: tt) (by simp))
      | cons m0 mt =>
        rw [List.getLast?_cons_cons, ← hm, ih]

theorem splitOnNl_append (x : List Char) (c : Char) :
    splitOnNl (x ++ [c]) =
      if c = '\n' then splitOnNl x ++ [[]]
      else modifyLast (fun q => q ++ [c]) (splitOnNl x) := by
  induction x with
  | nil =>
    by_cases hc : c = '\n'
    · simp [splitOnNl, hc]
    · simp [splitOnNl, hc, modifyLast]
  | cons a x' ih =>
    by_cases ha : a = '\n'
    · rw [List.cons_append, splitOnNl, if_pos ha, ih, splitOnNl, if_pos ha]
      by_cases hc : c = '\n'
      · rw [if_pos hc, if_pos hc]
        simp
      · rw [if_neg hc, if_neg hc]
        rw [modifyLast_cons _ [] (splitOnNl x') (splitOnNl_ne_nil x')]
    · cases hs' : splitOnNl (x' ++ [c]) with
      | nil => exact absurd hs' (splitOnNl_ne_nil _)
      | cons hd' tl' =>
        cases hs : splitOnNl x' with
        | nil => exact absurd hs (splitOnNl_ne_nil x')
        | cons hd tl =>
          have hleft : splitOnNl (a :: x' ++ [c]) = (a :: hd') :: tl' := by
            rw [List.cons_append, splitOnNl, if_neg ha, hs']
          have hsa : splitOnNl (a :: x') = (a :: hd) :: tl := by
            rw [splitOnNl, if_neg ha, hs]
          rw [hs'] at ih
          rw [show a :: x' ++ [c] = (a :: x') ++ [c] by simp] at hleft
          rw [hleft, hsa]
          rw [hs] at ih
          by_cases hc : c = '\n'
          · rw [if_pos hc] at ih ⊢
            rw [List.cons_append] at ih
            injection ih with ih1 ih2
            rw [ih1, ih2]
            simp
          · rw [if_neg hc] at ih ⊢
            cases tl with
            | nil =>
              rw [show modifyLast (fun q => q ++ [c]) [hd] = [hd ++ [c]] from rfl] at ih
              injection ih with ih1 ih2
              rw [ih1, ih2]
              rw [show modifyLast (fun q => q ++ [c]) [a :: hd] = [(a :: hd) ++ [c]] from rfl]
              simp
            | cons t0 tt =>
              rw [modifyLast_cons _ hd (t0 :: tt) (by simp)] at ih
              injection ih with ih1 ih2
              rw [ih1, ih2, modifyLast_cons _ (a :: hd) (t0 :: tt) (by simp)]

/-! ### Facts about the splitter's output -/

theorem splitToLines_no_nl (d : List Char) : ∀ p ∈ splitToLines d, '\n' ∉ p := by
  unfold splitToLines
  by_cases h : rustTrim d = []
  · simp [h]
  · rw [if_neg h]
    intro p hp
    obtain ⟨q, hq, hqe⟩ := List.mem_map.mp hp
    intro hmem
    rw [← hqe] at hmem
    exact splitOnNl_no_nl _ q hq (trimEnd_subset q '\n' hmem)

theorem splitToLines_last (d : List Char) (h : rustTrim d ≠ []) :
    splitToLines d ≠ [] ∧ (splitToLines d).getLast? ≠ some [] := by
  obtain ⟨c, hc1, hc2⟩ := trimEnd_last (trimStart d) h
  have hcnl : ¬ c = '\n' := by
    intro he
    rw [he] at hc2
    exact absurd hc2 (by decide)
  have htc : (rustTrim d).dropLast ++ [c] = rustTrim d :=
    List.dropLast_append_getLast? c hc1
  have hsplit : splitOnNl (rustTrim d) =
      modifyLast (fun q => q ++ [c]) (splitOnNl (rustTrim d).dropLast) := by
    conv_lhs => rw [← htc]
    rw [splitOnNl_append, if_neg hcnl]
  unfold splitToLines
  rw [if_neg h]
  constructor
  · rw [Ne, List.map_eq_nil_iff]
    exact splitOnNl_ne_nil _
  · rw [List.getLast?_map, hsplit, modifyLast_getLastQ]
    cases hq : (splitOnNl (rustTrim d).dropLast).getLast? with
    | none =>
      have h1 : splitOnNl (rustTrim d).dropLast ≠ [] := splitOnNl_ne_nil _
      have h2 := List.getLast?_isSome.mpr h1
      rw [hq] at h2
      exact absurd h2 (by simp)
    | some q =>
      simp only [Option.map_some']
      rw [trimEnd_append_nonws q c hc2]
      simp

/-! ### The inline spacers only insert spaces and preserve non-emptiness -/

theorem cjk_head (c : Char) (rest : List Char) :
    ∃ r, add_spaces_between_cjk_ascii (c :: rest) = c :: r := by
  cases rest with
  | nil => exact ⟨[], rfl⟩
  | cons c1 rest2 =>
    by_cases h : (isHanChar c && isAsciiAlnum c1) || (isAsciiAlnum c && isHanChar c1)
    · exact ⟨' ' :: c1 :: add_spaces_between_cjk_ascii rest2,
        by rw [add_spaces_between_cjk_ascii, if_pos h]⟩
    · exact ⟨add_spaces_between_cjk_ascii (c1 :: rest2),
        by rw [add_spaces_between_cjk_ascii, if_neg h]⟩

theorem cjk_ne_nil (l : List Char) (h : l ≠ []) : add_spaces_between_cjk_ascii l ≠ [] := by
  cases l with
  | nil => exact absurd rfl h
  | cons c rest =>
    obtain ⟨r, hr⟩ := cjk_head c rest
    simp [hr]

theorem cjk_subset (l : List Char) : ∀ x ∈ add_spaces_between_cjk_ascii l, x ∈ l ∨ x = ' ' := by
  have H : ∀ n (l : List Char), l.length ≤ n →
      ∀ x ∈ add_spaces_between_cjk_ascii l, x ∈ l ∨ x = ' ' := by
    intro n
    induction n with
    | zero =>
      intro l hl x hx
      have : l = [] := List.eq_nil_of_length_eq_zero (Nat.le_zero.mp hl)
      subst this
      exact absurd hx (by simp [add_spaces_between_cjk_ascii])
    | succ k ih =>
      intro l hl x hx
      cases l with
      | nil => exact absurd hx (by simp [add_spaces_between_cjk_ascii])
      | cons c0 l' =>
        cases l' with
        | nil =>
          rw [show add_spaces_between_cjk_ascii [c0] = [c0] from rfl] at hx
          left
          exact hx
        | cons c1 rest =>
          by_cases hcond : (isHanChar c0 && isAsciiAlnum c1) || (isAsciiAlnum c0 && isHanChar c1)
          · rw [add_spaces_between_cjk_ascii, if_pos hcond] at hx
            rcases List.mem_cons.mp hx with hx | hx
            · left; simp [hx]
            · rcases List.mem_cons.mp hx with hx | hx
              · right; exact hx
              · rcases List.mem_cons.mp hx with hx | hx
                · left; simp [hx]
                · rcases ih rest (by simp at hl; omega) x hx with h2 | h2
                  · left
                    exact List.mem_cons_of_mem _ (List.mem_cons_of_mem _ h2)
                  · right; exact h2
          · rw [add_spaces_between_cjk_ascii, if_neg hcond] at hx
            rcases List.mem_cons.mp hx with hx | hx
            · left; simp [hx]
            · rcases ih (c1 :: rest) (by simp at hl ⊢; omega) x hx with h2 | h2
              · left; exact List.mem_cons_of_mem _ h2
              · right; exact h2
  exact H l.length l (le_refl _)

theorem matchSpan_subset (l inner rest2 : List Char) (h : matchSpan l = some (inner, rest2)) :
    (∀ x ∈ inner, x ∈ l) ∧ (∀ x ∈ rest2, x ∈ l) := by
  cases l with
  | nil => exact absurd h (by simp [matchSpan])
  | cons c rest =>
    rw [matchSpan] at h
    by_cases hc : c = backtick
    · rw [if_pos hc] at h
      cases hd : rest.drop (rest.takeWhile isNotBacktick).length with
      | nil =>
        rw [hd] at h
        exact absurd h (by simp)
      | cons q rest2' =>
        rw [hd] at h
        have hp := Option.some.inj h
        rw [Prod.mk.injEq] at hp
        obtain ⟨hp1, hp2⟩ := hp
        constructor
        · intro x hx
          rw [← hp1] at hx
          exact List.mem_cons_of_mem _ ((List.takeWhile_sublist _).subset hx)
        · intro x hx
          rw [← hp2] at hx
          have hx2 : x ∈ q :: rest2' := List.mem_cons_of_mem q hx
          rw [← hd] at hx2
          exact List.mem_cons_of_mem _ ((List.drop_sublist _ _).subset hx2)
    · rw [if_neg hc] at h
      exact absurd h (by simp)
theorem csScan_subset (fuel : Nat) : ∀ (l : List Char), ∀ x ∈ csScan fuel l, x ∈ l ∨ x = ' ' := by
  induction fuel with
  | zero =>
    intro l x hx
    cases l with
    | nil => exact absurd hx (by simp [csScan_nil])
    | cons c rest =>
      left
      exact hx
  | succ k ih =>
    intro l x hx
    cases l with
    | nil => exact absurd hx (by simp [csScan_nil])
    | cons c rest =>
      by_cases h1 : isSpanNeighbor c = true
      · cases rest with
        | nil =>
          rw [show csScan (k + 1) [c] = [c] by simp [csScan, h1]] at hx
          left
          exact hx
        | cons r0 rr =>
          by_cases h2 : r0 = backtick
          · subst h2
            cases hms : matchSpan (backtick :: rr) with
            | none =>
              rw [show csScan (k + 1) (c :: backtick :: rr) = c :: csScan k (backtick :: rr) by
                simp [csScan, h1, hms]] at hx
              rcases List.mem_cons.mp hx with hx | hx
              · left; simp [hx]
              · rcases ih (backtick :: rr) x hx with h3 | h3
                · left; exact List.mem_cons_of_mem _ h3
                · right; exact h3
            | some pr =>
              obtain ⟨inner, rest2⟩ := pr
              obtain ⟨hsub1, hsub2⟩ := matchSpan_subset (backtick :: rr) inner rest2 hms
              cases rest2 with
              | nil =>
                rw [show csScan (k + 1) (c :: backtick :: rr) =
                    c :: ' ' :: (backtick :: inner ++ [backtick]) by
                  simp [csScan, h1, hms]] at hx
                rcases List.mem_cons.mp hx with hx | hx
                · left; simp [hx]
                · rcases List.mem_cons.mp hx with hx | hx
                  · right; exact hx
                  · rcases List.mem_cons.mp hx with hx | hx
                    · left; rw [hx]; simp
                    · rcases List.mem_append.mp hx with hx | hx
                      · left; exact List.mem_cons_of_mem _ (hsub1 x hx)
                      · left; rw [List.mem_singleton.mp hx]; simp
              | cons d rest3 =>
                have hd_mem : d ∈ backtick :: rr := hsub2 d (by simp)
                have hr3 : ∀ y ∈ rest3, y ∈ backtick :: rr := fun y hy =>
                  hsub2 y (List.mem_cons_of_mem d hy)
                by_cases h3 : isSpanNeighbor d = true
                · rw [show csScan (k + 1) (c :: backtick :: rr) =
                      c :: ' ' :: (backtick :: inner ++ [backtick]) ++ ' ' :: d :: csScan k rest3 by
                    simp [csScan, h1, hms, h3]] at hx
                  rcases List.mem_cons.mp hx with hx | hx
                  · left; simp [hx]
                  · rcases List.mem_cons.mp hx with hx | hx
                    · right; exact hx
                    · rcases List.mem_append.mp hx with hx | hx
                      · rcases List.mem_cons.mp hx with hx | hx
                        · left; rw [hx]; simp
                        · rcases List.mem_append.mp hx with hx | hx
                          · left; exact List.mem_cons_of_mem _ (hsub1 x hx)
                          · left; rw [List.mem_singleton.mp hx]; simp
                      · rcases List.mem_cons.mp hx with hx | hx
                        · right; exact hx
                        · rcases List.mem_cons.mp hx with hx | hx
                          · left; exact List.mem_cons_of_mem _ (hx ▸ hd_mem)
                          · rcases ih rest3 x hx with h4 | h4
                            · left; exact List.mem_cons_of_mem _ (hr3 x h4)
                            · right; exact h4
                · rw [show csScan (k + 1) (c :: backtick :: rr) =
                      c :: ' ' :: (backtick :: inner ++ [backtick]) ++ csScan k (d :: rest3) by
                    simp [csScan, h1, hms, h3]] at hx
                  rcases List.mem_cons.mp hx with hx | hx
                  · left; simp [hx]
                  · rcases List.mem_cons.mp hx with hx | hx
                    · right; exact hx
                    · rcases List.mem_append.mp hx with hx | hx
                      · rcases List.mem_cons.mp hx with hx | hx
                        · left; rw [hx]; simp
                        · rcases List.mem_append.mp hx with hx | hx
                          · left; exact List.mem_cons_of_mem _ (hsub1 x hx)
                          · left; rw [List.mem_singleton.mp hx]; simp
                      · rcases ih (d :: rest3) x hx with h4 | h4
                        · left; exact List.mem_cons_of_mem _ (hsub2 x h4)
                        · right; exact h4
          · rw [show csScan (k + 1) (c :: r0 :: rr) = c :: csScan k (r0 :: rr) by
              simp [csScan, h1, h2]] at hx
            rcases List.mem_cons.mp hx with hx | hx
            · left; simp [hx]
            · rcases ih (r0 :: rr) x hx with h3 | h3
              · left; exact List.mem_cons_of_mem _ h3
              · right; exact h3
      · by_cases h2 : c = backtick
        · subst h2
          cases hms : matchSpan (backtick :: rest) with
          | none =>
            rw [show csScan (k + 1) (backtick :: rest) = backtick :: csScan k rest by
              simp [csScan, h1, hms]] at hx
            rcases List.mem_cons.mp hx with hx | hx
            · left; simp [hx]
            · rcases ih rest x hx with h3 | h3
              · left; exact List.mem_cons_of_mem _ h3
              · right; exact h3
          | some pr =>
            obtain ⟨inner, rest2⟩ := pr
            obtain ⟨hsub1, hsub2⟩ := matchSpan_subset (backtick :: rest) inner rest2 hms
            cases rest2 with
            | nil =>
              rw [show csScan (k + 1) (backtick :: rest) = backtick :: inner ++ [backtick] by
                simp [csScan, h1, hms]] at hx
              rcases List.mem_cons.mp hx with hx | hx
              · left; rw [hx]; simp
              · rcases List.mem_append.mp hx with hx | hx
                · left; exact hsub1 x hx
                · left; rw [List.mem_singleton.mp hx]; simp
            | cons d rest3 =>
              have hd_mem : d ∈ backtick :: rest := hsub2 d (by simp)
              have hr3 : ∀ y ∈ rest3, y ∈ backtick :: rest := fun y hy =>
                hsub2 y (List.mem_cons_of_mem d hy)
              by_cases h3 : isSpanNeighbor d = true
              · rw [show csScan (k + 1) (backtick :: rest) =
                    (backtick :: inner ++ [backtick]) ++ ' ' :: d :: csScan k rest3 by
                  simp [csScan, h1, hms, h3]] at hx
                rcases List.mem_append.mp hx with hx | hx
                · rcases List.mem_cons.mp hx with hx | hx
                  · left; rw [hx]; simp
                  · rcases List.mem_append.mp hx with hx | hx
                    · left; exact hsub1 x hx
                    · left; rw [List.mem_singleton.mp hx]; simp
                · rcases List.mem_cons.mp hx with hx | hx
                  · right; exact hx
                  · rcases List.mem_cons.mp hx with hx | hx
                    · left; exact hx ▸ hd_mem
                    · rcases ih rest3 x hx with h4 | h4
                      · left; exact hr3 x h4
                      · right; exact h4
              · rw [show csScan (k + 1) (backtick :: rest) =
                    (backtick :: inner ++ [backtick]) ++ csScan k (d :: rest3) by
                  simp [csScan, h1, hms, h3]] at hx
                rcases List.mem_append.mp hx with hx | hx
                · rcases List.mem_cons.mp hx with hx | hx
                  · left; rw [hx]; simp
                  · rcases List.mem_append.mp hx with hx | hx
                    · left; exact hsub1 x hx
                    · left; rw [List.mem_singleton.mp hx]; simp
                · rcases ih (d :: rest3) x hx with h4 | h4
                  · left; exact hsub2 x h4
                  · right; exact h4
        · rw [show csScan (k + 1) (c :: rest) = c :: csScan k rest by
            simp [csScan, h1, h2]] at hx
          rcases List.mem_cons.mp hx with hx | hx
          · left; simp [hx]
          · rcases ih rest x hx with h3 | h3
            · left; exact List.mem_cons_of_mem _ h3
            · right; exact h3

theorem csScan_cons_ne_nil (fuel : Nat) (c : Char) (rest : List Char) :
    csScan (fuel + 1) (c :: rest) ≠ [] := by
  by_cases h1 : isSpanNeighbor c = true
  · cases rest with
    | nil => simp [csScan, h1]
    | cons r0 rr =>
      by_cases h2 : r0 = backtick
      · subst h2
        cases hms : matchSpan (backtick :: rr) with
        | none => simp [csScan, h1, hms]
        | some pr =>
          obtain ⟨inner, rest2⟩ := pr
          cases rest2 with
          | nil => simp [csScan, h1, hms]
          | cons d rest3 =>
            by_cases h3 : isSpanNeighbor d = true <;> simp [csScan, h1, hms, h3]
      · simp [csScan, h1, h2]
  · by_cases h2 : c = backtick
    · subst h2
      cases hms : matchSpan (backtick :: rest) with
      | none => simp [csScan, h1, hms]
      | some pr =>
        obtain ⟨inner, rest2⟩ := pr
        cases rest2 with
        | nil => simp [csScan, h1, hms]
        | cons d rest3 =>
          by_cases h3 : isSpanNeighbor d = true <;> simp [csScan, h1, hms, h3]
    · simp [csScan, h1, h2]

theorem acs_ne_nil (l : List Char) (h : l ≠ []) : add_space_around_code_spans l ≠ [] := by
  cases l with
  | nil => exact absurd rfl h
  | cons c rest => exact csScan_cons_ne_nil rest.length c rest

theorem acs_subset (l : List Char) : ∀ x ∈ add_space_around_code_spans l, x ∈ l ∨ x = ' ' :=
  csScan_subset l.length l

theorem format_line_ne_nil (l : List Char) (h : l ≠ []) : format_line l ≠ [] := by
  unfold format_line format_text
  exact acs_ne_nil _ (acs_ne_nil _ (cjk_ne_nil _ (cjk_ne_nil _ h)))

theorem cjk_no_nl (l : List Char) (h : '\n' ∉ l) : '\n' ∉ add_spaces_between_cjk_ascii l := by
  intro hmem
  rcases cjk_subset l '\n' hmem with h2 | h2
  · exact h h2
  · exact absurd h2 (by decide)

theorem acs_no_nl (l : List Char) (h : '\n' ∉ l) : '\n' ∉ add_space_around_code_spans l := by
  intro hmem
  rcases acs_subset l '\n' hmem with h2 | h2
  · exact h h2
  · exact absurd h2 (by decide)

theorem format_line_no_nl (l : List Char) (h : '\n' ∉ l) : '\n' ∉ format_line l := by
  unfold format_line format_text
  exact acs_no_nl _ (acs_no_nl _ (cjk_no_nl _ (cjk_no_nl _ h)))

/-! ### Classification helpers and block-formatter invariants -/

theorem noAdjEmptyB_cons_cons (a b : List Char) (t : List (List Char)) :
    noAdjEmptyB (a :: b :: t) =
      ((!(decide (a = []) && decide (b = []))) && noAdjEmptyB (b :: t)) := rfl

theorem lastTwoOkB_singleton (x : List Char) : lastTwoOkB [x] = !x.isEmpty := rfl

theorem lastTwoOkB_pair (x y : List Char) : lastTwoOkB [x, y] = !(x.isEmpty && y.isEmpty) := rfl

theorem lastTwoOkB_cons3 (x y z : List Char) (t : List (List Char)) :
    lastTwoOkB (x :: y :: z :: t) = lastTwoOkB (y :: z :: t) := rfl

theorem gls_nil_empty (prev : LineState)
    (h : ¬(prev = LineState.CodeStart ∨ prev = LineState.Code)) :
    get_line_state [] prev = LineState.Empty := by
  unfold get_line_state
  rw [if_neg h]
  simp

theorem gls_empty_imp_nil (l : List Char) (prev : LineState)
    (h : ¬(prev = LineState.CodeStart ∨ prev = LineState.Code))
    (he : get_line_state l prev = LineState.Empty) : l = [] := by
  by_contra hl
  unfold get_line_state at he
  rw [if_neg h, if_neg hl] at he
  split at he
  · exact absurd he (by simp)
  · split at he
    · exact absurd he (by simp)
    · split at he <;> exact absurd he (by simp)

theorem gls_not_code_states (l : List Char) (prev : LineState)
    (h : ¬(prev = LineState.CodeStart ∨ prev = LineState.Code)) :
    get_line_state l prev ≠ LineState.Code ∧ get_line_state l prev ≠ LineState.CodeEnd := by
  unfold get_line_state
  rw [if_neg h]
  by_cases hl : l = []
  · rw [if_pos hl]
    exact ⟨by simp, by simp⟩
  · rw [if_neg hl]
    constructor
    · split
      · simp
      · split
        · simp
        · split <;> simp
    · split
      · simp
      · split
        · simp
        · split <;> simp

theorem gls_codestart_fence (l : List Char) (prev : LineState)
    (h : get_line_state l prev = LineState.CodeStart) : startsWithFence l = true := by
  unfold get_line_state at h
  by_cases hp : prev = LineState.CodeStart ∨ prev = LineState.Code
  · rw [if_pos hp] at h
    split at h <;> exact absurd h (by simp)
  · rw [if_neg hp] at h
    by_cases hl : l = []
    · rw [if_pos hl] at h
      exact absurd h (by simp)
    · rw [if_neg hl] at h
      split at h
      · exact absurd h (by simp)
      · split at h
        · assumption
        · split at h <;> exact absurd h (by simp)

theorem formatStep_snd (prev : LineState) (l : List Char) :
    (formatStep prev l).2 = get_line_state l prev ∨ (formatStep prev l).2 = LineState.Empty := by
  unfold formatStep
  cases hcur : get_line_state l prev <;> simp

theorem noAdjEmptyB_append (A : List (List Char)) : ∀ B : List (List Char),
    noAdjEmptyB A = true → noAdjEmptyB B = true →
    (A.getLast? = some [] → B.head? ≠ some []) → noAdjEmptyB (A ++ B) = true := by
  induction A with
  | nil =>
    intro B _ hB _
    simpa using hB
  | cons a A' ih =>
    intro B hA hB hAB
    cases A' with
    | nil =>
      cases B with
      | nil => simpa using hA
      | cons b B' =>
        simp only [List.cons_append, List.nil_append]
        rw [noAdjEmptyB_cons_cons, Bool.and_eq_true]
        refine ⟨?_, hB⟩
        by_cases ha : a = []
        · have hb : b ≠ [] := by
            intro hbe
            exact (hAB (by simp [ha])) (by simp [hbe])
          simp [ha, hb]
        · simp [ha]
    | cons a2 A'' =>
      rw [noAdjEmptyB_cons_cons, Bool.and_eq_true] at hA
      obtain ⟨hA1, hA2⟩ := hA
      simp only [List.cons_append]
      rw [noAdjEmptyB_cons_cons, Bool.and_eq_true]
      refine ⟨hA1, ?_⟩
      have := ih B hA2 hB (fun hlast => hAB (by rw [List.getLast?_cons_cons]; exact hlast))
      simpa using this

theorem lastTwoOkB_append (B : List (List Char)) (hB : lastTwoOkB B = true) :
    ∀ A : List (List Char), lastTwoOkB (A ++ B) = true := by
  have hBne : B ≠ [] := by
    intro he
    rw [he] at hB
    exact absurd hB (by simp [lastTwoOkB])
  intro A
  induction A with
  | nil => simpa using hB
  | cons a A' ih =>
    simp only [List.cons_append]
    cases hAB : A' ++ B with
    | nil =>
      exact absurd (List.append_eq_nil.mp hAB).2 hBne
    | cons x t =>
      cases t with
      | nil =>
        have hx : A' = [] ∧ B = [x] := by
          cases A' with
          | nil => exact ⟨rfl, by simpa using hAB⟩
          | cons a1 A2 =>
            simp only [List.cons_append] at hAB
            injection hAB with h1 h2
            exact absurd (List.append_eq_nil.mp h2).2 hBne
        obtain ⟨hA', hBx⟩ := hx
        rw [hBx] at hB
        rw [lastTwoOkB_singleton] at hB
        rw [lastTwoOkB_pair]
        rw [Bool.not_eq_true'] at hB
        simp [hB]
      | cons y t2 =>
        rw [lastTwoOkB_cons3]
        rw [hAB] at ih
        exact ih

theorem isEmpty_false_of_ne {l : List Char} (h : l ≠ []) : l.isEmpty = false := by
  cases l with
  | nil => exact absurd rfl h
  | cons a t => rfl

theorem isEmpty_eq_decide (l : List Char) : l.isEmpty = decide (l = []) := by
  cases l <;> simp

theorem step_lastTwoOk (prev : LineState) (l : List Char) (hl : l ≠ []) :
    lastTwoOkB (formatStep prev l).1 = true := by
  have hf : (format_line l).isEmpty = false := isEmpty_false_of_ne (format_line_ne_nil l hl)
  have hle : l.isEmpty = false := isEmpty_false_of_ne hl
  unfold formatStep
  cases hcur : get_line_state l prev with
  | Empty =>
    by_cases hp : prev = LineState.CodeStart ∨ prev = LineState.Code
    · unfold get_line_state at hcur
      rw [if_pos hp] at hcur
      split at hcur <;> exact absurd hcur (by simp)
    · exact absurd (gls_empty_imp_nil l prev hp hcur) hl
  | Normal =>
    by_cases hc : prev = LineState.Table ∨ prev = LineState.CodeEnd ∨ prev = LineState.Blockquote
    · rw [if_pos hc]
      rw [show ([[]] ++ [format_line l] : List (List Char)) = [[], format_line l] from rfl]
      rw [lastTwoOkB_pair]
      simp [hf]
    · rw [if_neg hc]
      rw [show (([] : List (List Char)) ++ [format_line l]) = [format_line l] from rfl]
      rw [lastTwoOkB_singleton]
      simp [hf]
  | CodeStart =>
    by_cases hc : prev ≠ LineState.Empty
    · rw [if_pos hc]
      rw [show ([[]] ++ [l] : List (List Char)) = [[], l] from rfl, lastTwoOkB_pair]
      simp [hle]
    · rw [if_neg hc]
      rw [show (([] : List (List Char)) ++ [l]) = [l] from rfl, lastTwoOkB_singleton]
      simp [hle]
  | Blockquote =>
    by_cases hc : prev ≠ LineState.Empty ∧ prev ≠ LineState.Blockquote
    · rw [if_pos hc]
      rw [show ([[]] ++ [format_line l] : List (List Char)) = [[], format_line l] from rfl,
        lastTwoOkB_pair]
      simp [hf]
    · rw [if_neg hc]
      rw [show (([] : List (List Char)) ++ [format_line l]) = [format_line l] from rfl,
        lastTwoOkB_singleton]
      simp [hf]
  | Code =>
    rw [lastTwoOkB_singleton]
    simp [hle]
  | CodeEnd =>
    rw [lastTwoOkB_singleton]
    simp [hle]
  | Table =>
    by_cases hc : prev ≠ LineState.Table ∧ prev ≠ LineState.Empty
    · rw [if_pos hc]
      rw [show ([[]] ++ [format_line l] : List (List Char)) = [[], format_line l] from rfl,
        lastTwoOkB_pair]
      simp [hf]
    · rw [if_neg hc]
      rw [show (([] : List (List Char)) ++ [format_line l]) = [format_line l] from rfl,
        lastTwoOkB_singleton]
      simp [hf]
  | Title =>
    by_cases hc : prev = LineState.Table ∨ prev = LineState.CodeEnd ∨ prev = LineState.List ∨
        prev = LineState.Blockquote
    · rw [if_pos hc]
      rw [show ([[]] ++ [format_line l, []] : List (List Char)) = [[], format_line l, []] from rfl,
        lastTwoOkB_cons3, lastTwoOkB_pair]
      simp [hf]
    · rw [if_neg hc]
      rw [show (([] : List (List Char)) ++ [format_line l, []]) = [format_line l, []] from rfl,
        lastTwoOkB_pair]
      simp [hf]
  | List =>
    by_cases hc : prev ≠ LineState.List ∧ prev ≠ LineState.Empty
    · rw [if_pos hc]
      rw [show ([[]] ++ [format_line l] : List (List Char)) = [[], format_line l] from rfl,
        lastTwoOkB_pair]
      simp [hf]
    · rw [if_neg hc]
      rw [show (([] : List (List Char)) ++ [format_line l]) = [format_line l] from rfl,
        lastTwoOkB_singleton]
      simp [hf]

theorem formatLinesGo_lastTwoOk (ls : List (List Char)) : ∀ prev, ls ≠ [] →
    ls.getLast? ≠ some [] → lastTwoOkB (formatLinesGo prev ls) = true := by
  induction ls with
  | nil =>
    intro prev h _
    exact absurd rfl h
  | cons l ls ih =>
    intro prev _ hlast
    cases ls with
    | nil =>
      have hl : l ≠ [] := by
        intro he
        rw [he] at hlast
        exact hlast (by simp)
      rw [show formatLinesGo prev [l] =
          (formatStep prev l).1 ++ formatLinesGo (formatStep prev l).2 [] from rfl]
      rw [show formatLinesGo (formatStep prev l).2 [] = [] from rfl, List.append_nil]
      exact step_lastTwoOk prev l hl
    | cons l2 ls2 =>
      have h2 := ih (formatStep prev l).2 (by simp)
        (by rw [← List.getLast?_cons_cons (a := l)]; exact hlast)
      rw [show formatLinesGo prev (l :: l2 :: ls2) =
          (formatStep prev l).1 ++ formatLinesGo (formatStep prev l).2 (l2 :: ls2) from rfl]
      exact lastTwoOkB_append _ h2 _

/-! ### The renumberer preserves the emptiness pattern of the lines -/

theorem parse_some_ne_nil {l : List Char} {v : Nat × ListType × List Char}
    (h : parseListItem l = some v) : l ≠ [] := by
  intro he
  rw [he] at h
  exact absurd h (by simp [parseListItem])

theorem listStep_fst_ne_nil (stack : List ListContext) (ind : Nat) (t : ListType)
    (content : List Char) : (listStep stack ind t content).1 ≠ [] := by
  obtain ⟨cur, stack2, he⟩ := listStep_shape stack ind t content
  have h1 : (listStep stack ind t content).1 = renderItem cur stack2.length content := by
    rw [he]
  obtain ⟨rest, hr, hne, _⟩ := renderItem_shape cur stack2.length content
  rw [h1, hr]
  simp [hne]

theorem formatListsGo_pattern (ls : List (List Char)) : ∀ stack : List ListContext,
    (formatListsGo stack ls).map (fun p => p.isEmpty) = ls.map (fun p => p.isEmpty) := by
  induction ls with
  | nil => intro stack; rfl
  | cons l ls ih =>
    intro stack
    rw [formatListsGo]
    cases hp : parseListItem l with
    | none => simp [ih]
    | some v =>
      obtain ⟨ind, t, content⟩ := v
      simp only [List.map_cons]
      rw [isEmpty_false_of_ne (listStep_fst_ne_nil stack ind t content),
        isEmpty_false_of_ne (parse_some_ne_nil hp), ih]

theorem pattern_lastTwoOk (L : List (List Char)) : ∀ M : List (List Char),
    L.map (fun p => p.isEmpty) = M.map (fun p => p.isEmpty) → lastTwoOkB L = lastTwoOkB M := by
  induction L with
  | nil =>
    intro M h
    have : M = [] := by
      cases M with
      | nil => rfl
      | cons m M' => exact absurd h (by simp)
    rw [this]
  | cons x L' ih =>
    intro M h
    cases M with
    | nil => exact absurd h (by simp)
    | cons y M' =>
      simp only [List.map_cons, List.cons.injEq] at h
      obtain ⟨hxy, h'⟩ := h
      cases L' with
      | nil =>
        have : M' = [] := by
          cases M' with
          | nil => rfl
          | cons m M2 => exact absurd h' (by simp)
        subst this
        rw [lastTwoOkB_singleton, lastTwoOkB_singleton, hxy]
      | cons x2 L'' =>
        cases M' with
        | nil => exact absurd h' (by simp)
        | cons y2 M'' =>
          simp only [List.map_cons, List.cons.injEq] at h'
          obtain ⟨hxy2, h''⟩ := h'
          cases L'' with
          | nil =>
            have : M'' = [] := by
              cases M'' with
              | nil => rfl
              | cons m M3 => exact absurd h'' (by simp)
            subst this
            rw [lastTwoOkB_pair, lastTwoOkB_pair, hxy, hxy2]
          | cons x3 L3 =>
            cases M'' with
            | nil => exact absurd h'' (by simp)
            | cons y3 M3 =>
              rw [lastTwoOkB_cons3, lastTwoOkB_cons3]
              apply ih
              simp only [List.map_cons]
              rw [hxy2]
              simp only [List.map_cons] at h''
              rw [h'']

theorem pattern_noAdj (L : List (List Char)) : ∀ M : List (List Char),
    L.map (fun p => p.isEmpty) = M.map (fun p => p.isEmpty) → noAdjEmptyB L = noAdjEmptyB M := by
  induction L with
  | nil =>
    intro M h
    have : M = [] := by
      cases M with
      | nil => rfl
      | cons m M' => exact absurd h (by simp)
    rw [this]
  | cons x L' ih =>
    intro M h
    cases M with
    | nil => exact absurd h (by simp)
    | cons y M' =>
      simp only [List.map_cons, List.cons.injEq] at h
      obtain ⟨hxy, h'⟩ := h
      cases L' with
      | nil =>
        have : M' = [] := by
          cases M' with
          | nil => rfl
          | cons m M2 => exact absurd h' (by simp)
        subst this
        rfl
      | cons x2 L'' =>
        cases M' with
        | nil => exact absurd h' (by simp)
        | cons y2 M'' =>
          have hxy2 : x2.isEmpty = y2.isEmpty := by
            simp only [List.map_cons, List.cons.injEq] at h'
            exact h'.1
          rw [noAdjEmptyB_cons_cons, noAdjEmptyB_cons_cons]
          rw [show decide (x = []) = decide (y = []) by
            rw [← isEmpty_eq_decide, ← isEmpty_eq_decide, hxy]]
          rw [show decide (x2 = []) = decide (y2 = []) by
            rw [← isEmpty_eq_decide, ← isEmpty_eq_decide, hxy2]]
          rw [ih (y2 :: M'') h']

/-! ### Joining with newlines and the final `push` of the trailing newline -/

theorem endsOne_cons_ge2 (c : Char) (r : List Char) (h : r.length ≥ 2) :
    endsOneNl (c :: r) = endsOneNl r := by
  cases r with
  | nil => exact absurd h (by simp)
  | cons x t =>
    cases t with
    | nil => exact absurd h (by simp)
    | cons y t2 => rfl

theorem endsOne_append (A : List Char) : ∀ B : List Char, B.length ≥ 2 →
    endsOneNl (A ++ B) = endsOneNl B := by
  induction A with
  | nil => intro B _; rfl
  | cons a A' ih =>
    intro B hB
    rw [List.cons_append, endsOne_cons_ge2 a (A' ++ B) (by simp; omega)]
    exact ih B hB

theorem endsOne_snoc_nl (x : List Char) : x ≠ [] → '\n' ∉ x →
    endsOneNl (x ++ ['\n']) = true := by
  induction x with
  | nil => intro h _; exact absurd rfl h
  | cons a t ih =>
    intro _ hnl
    have ha : ¬ a = '\n' := fun he => hnl (by rw [he]; exact List.mem_cons_self _ _)
    cases t with
    | nil => simp [endsOneNl, ha]
    | cons b t2 =>
      rw [List.cons_append, endsOne_cons_ge2 a ((b :: t2) ++ ['\n']) (by simp)]
      exact ih (by simp) (fun hm => hnl (List.mem_cons_of_mem a hm))

theorem pushNl_append (A B : List Char) (hB : B ≠ []) :
    pushNl (A ++ B) = A ++ pushNl B := by
  unfold pushNl
  rw [List.getLast?_append_of_ne_nil A hB]
  split
  · rfl
  · rw [List.append_assoc]

theorem pushNl_ne_nil (l : List Char) : pushNl l ≠ [] := by
  unfold pushNl
  split
  · rename_i h
    intro he
    subst he
    simp at h
  · simp

theorem pushNl_no_nl_snoc (x : List Char) (hx : x ≠ []) (hnl : '\n' ∉ x) :
    pushNl x = x ++ ['\n'] := by
  unfold pushNl
  rw [if_neg]
  intro hc
  exact hnl (mem_of_getLastQ hc)

theorem joinNl_cons_cons (x y : List Char) (t : List (List Char)) :
    joinNl (x :: y :: t) = x ++ '\n' :: joinNl (y :: t) := rfl

theorem joinNl_ne_nil_of_two (y : List Char) (t : List (List Char)) :
    joinNl (y :: t) ≠ [] ∨ (y = [] ∧ t = []) := by
  cases t with
  | nil =>
    by_cases hy : y = []
    · exact Or.inr ⟨hy, rfl⟩
    · exact Or.inl hy
  | cons z t2 =>
    left
    rw [joinNl_cons_cons]
    simp

theorem join_endsOne (L : List (List Char)) : lastTwoOkB L = true →
    (∀ p ∈ L, '\n' ∉ p) →
    endsOneNl (pushNl (joinNl L)) = true ∧ (pushNl (joinNl L)).length ≥ 2 := by
  induction L with
  | nil => intro h _; exact absurd h (by simp [lastTwoOkB])
  | cons x L' ih =>
    intro hok hnl
    have hxnl : '\n' ∉ x := hnl x (List.mem_cons_self _ _)
    cases L' with
    | nil =>
      rw [lastTwoOkB_singleton, Bool.not_eq_true', List.isEmpty_eq_false] at hok
      rw [show joinNl [x] = x from rfl, pushNl_no_nl_snoc x hok hxnl]
      refine ⟨endsOne_snoc_nl x hok hxnl, ?_⟩
      cases x with
      | nil => exact absurd rfl hok
      | cons a t => simp
    | cons y L'' =>
      cases L'' with
      | nil =>
        have hynl : '\n' ∉ y := hnl y (by simp)
        rw [lastTwoOkB_pair] at hok
        rw [joinNl_cons_cons, show joinNl [y] = y from rfl]
        by_cases hy : y = []
        · subst hy
          have hx : x ≠ [] := by
            intro he
            rw [he] at hok
            exact absurd hok (by simp)
          rw [show (x ++ ['\n'] : List Char) = x ++ '\n' :: [] from rfl] at *
          have hlast : (x ++ ['\n']).getLast? = some '\n' := by
            rw [List.getLast?_append_of_ne_nil x (by simp)]
            rfl
          rw [show pushNl (x ++ '\n' :: []) = x ++ ['\n'] from by
            unfold pushNl
            rw [if_pos hlast]]
          refine ⟨endsOne_snoc_nl x hx hxnl, ?_⟩
          cases x with
          | nil => exact absurd rfl hx
          | cons a t => simp
        · rw [show (x ++ '\n' :: y : List Char) = x ++ ['\n'] ++ y from by simp,
            pushNl_append (x ++ ['\n']) y hy, pushNl_no_nl_snoc y hy hynl]
          rw [List.append_assoc, show (['\n'] ++ (y ++ ['\n']) : List Char) =
            '\n' :: (y ++ ['\n']) from rfl]
          constructor
          · rw [endsOne_append x ('\n' :: (y ++ ['\n'])) (by simp),
              endsOne_cons_ge2 '\n' (y ++ ['\n']) (by
                cases y with
                | nil => exact absurd rfl hy
                | cons a t => simp)]
            exact endsOne_snoc_nl y hy hynl
          · simp
            omega
      | cons z L3 =>
        rw [lastTwoOkB_cons3] at hok
        have hrest := ih hok (fun p hp => hnl p (List.mem_cons_of_mem x hp))
        have hjne : joinNl (y :: z :: L3) ≠ [] := by
          rw [joinNl_cons_cons]
          simp
        rw [joinNl_cons_cons,
          show (x ++ '\n' :: joinNl (y :: z :: L3) : List Char) =
            x ++ ['\n'] ++ joinNl (y :: z :: L3) from by simp,
          pushNl_append (x ++ ['\n']) _ hjne, List.append_assoc,
          show (['\n'] ++ pushNl (joinNl (y :: z :: L3)) : List Char) =
            '\n' :: pushNl (joinNl (y :: z :: L3)) from rfl]
        constructor
        · rw [endsOne_append x _ (by simp; omega),
            endsOne_cons_ge2 '\n' _ hrest.2]
          exact hrest.1
        · have h2 := hrest.2
          simp
          omega

/-! ### No entry of the formatted line sequences contains a newline -/

theorem formatStep_mem (prev : LineState) (l : List Char) :
    ∀ p ∈ (formatStep prev l).1, p = [] ∨ p = format_line l ∨ p = l := by
  unfold formatStep
  cases hcur : get_line_state l prev with
  | Normal =>
    by_cases hc : prev = LineState.Table ∨ prev = LineState.CodeEnd ∨ prev = LineState.Blockquote
    · rw [if_pos hc]
      intro p hp
      rcases List.mem_append.mp hp with h | h
      · left; simpa using h
      · right; left; simpa using h
    · rw [if_neg hc]
      intro p hp
      right; left; simpa using hp
  | Blockquote =>
    by_cases hc : prev ≠ LineState.Empty ∧ prev ≠ LineState.Blockquote
    · rw [if_pos hc]
      intro p hp
      rcases List.mem_append.mp hp with h | h
      · left; simpa using h
      · right; left; simpa using h
    · rw [if_neg hc]
      intro p hp
      right; left; simpa using hp
  | Table =>
    by_cases hc : prev ≠ LineState.Table ∧ prev ≠ LineState.Empty
    · rw [if_pos hc]
      intro p hp
      rcases List.mem_append.mp hp with h | h
      · left; simpa using h
      · right; left; simpa using h
    · rw [if_neg hc]
      intro p hp
      right; left; simpa using hp
  | List =>
    by_cases hc : prev ≠ LineState.List ∧ prev ≠ LineState.Empty
    · rw [if_pos hc]
      intro p hp
      rcases List.mem_append.mp hp with h | h
      · left; simpa using h
      · right; left; simpa using h
    · rw [if_neg hc]
      intro p hp
      right; left; simpa using hp
  | CodeStart =>
    by_cases hc : prev ≠ LineState.Empty
    · rw [if_pos hc]
      intro p hp
      rcases List.mem_append.mp hp with h | h
      · left; simpa using h
      · right; right; simpa using h
    · rw [if_neg hc]
      intro p hp
      right; right; simpa using hp
  | Code =>
    intro p hp
    right; right; simpa using hp
  | CodeEnd =>
    intro p hp
    right; right; simpa using hp
  | Empty =>
    by_cases hc : prev ≠ LineState.Empty
    · rw [if_pos hc]
      intro p hp
      left; simpa using hp
    · rw [if_neg hc]
      intro p hp
      simp at hp
  | Title =>
    by_cases hc : prev = LineState.Table ∨ prev = LineState.CodeEnd ∨ prev = LineState.List ∨
        prev = LineState.Blockquote
    · rw [if_pos hc]
      intro p hp
      rcases List.mem_append.mp hp with h | h
      · left; simpa using h
      · rcases List.mem_cons.mp h with he | he
        · right; left; exact he
        · left; simpa using he
    · rw [if_neg hc]
      intro p hp
      simp at hp
      rcases hp with he | he
      · right; left; exact he
      · left; exact he

theorem formatLinesGo_noNl (ls : List (List Char)) : ∀ prev : LineState,
    (∀ l ∈ ls, '\n' ∉ l) → ∀ p ∈ formatLinesGo prev ls, '\n' ∉ p := by
  induction ls with
  | nil => intro prev _ p hp; simp [formatLinesGo] at hp
  | cons l ls ih =>
    intro prev hnl p hp
    rw [show formatLinesGo prev (l :: ls) =
      (formatStep prev l).1 ++ formatLinesGo (formatStep prev l).2 ls from rfl] at hp
    rcases List.mem_append.mp hp with h | h
    · rcases formatStep_mem prev l p h with he | he | he
      · subst he; simp
      · subst he
        exact format_line_no_nl l (hnl l (List.mem_cons_self _ _))
      · rw [he]; exact hnl l (List.mem_cons_self _ _)
    · exact ih (formatStep prev l).2 (fun q hq => hnl q (List.mem_cons_of_mem l hq)) p h

theorem natDecimalAux_digits (fuel : Nat) :
    ∀ n x, x ∈ natDecimalAux fuel n → isAsciiDigit x = true := by
  induction fuel with
  | zero => intro n x hx; simp [natDecimalAux] at hx
  | succ k ih =>
    intro n x hx
    rw [natDecimalAux] at hx
    by_cases hn : n < 10
    · rw [if_pos hn] at hx
      simp at hx
      rw [hx]
      exact digitChar_digit n
    · rw [if_neg hn] at hx
      rcases List.mem_append.mp hx with h | h
      · exact ih _ x h
      · simp at h
        rw [h]
        exact digitChar_digit _

theorem renderItem_no_nl (cur : ListContext) (depth : Nat) (content : List Char)
    (hc : '\n' ∉ content) : '\n' ∉ renderItem cur depth content := by
  obtain ⟨lt, ind, cnt⟩ := cur
  cases lt with
  | Unordered =>
    unfold renderItem
    intro hmem
    rcases List.mem_append.mp hmem with h | h
    · exact absurd (List.eq_of_mem_replicate h) (by decide)
    · rcases List.mem_cons.mp h with h | h
      · exact absurd h (by decide)
      · rcases List.mem_cons.mp h with h | h
        · exact absurd h (by decide)
        · exact hc h
  | Ordered =>
    unfold renderItem
    intro hmem
    rcases List.mem_append.mp hmem with h | h
    · exact absurd (List.eq_of_mem_replicate h) (by decide)
    · rcases List.mem_append.mp h with h2 | h2
      · exact absurd (natDecimalAux_digits (cnt + 1) cnt '\n' h2) (by decide)
      · rcases List.mem_cons.mp h2 with h2 | h2
        · exact absurd h2 (by decide)
        · rcases List.mem_cons.mp h2 with h2 | h2
          · exact absurd h2 (by decide)
          · exact hc h2

theorem parse_content_subset {l : List Char} {ind : Nat} {t : ListType} {content : List Char}
    (h : parseListItem l = some (ind, t, content)) : ∀ x ∈ content, x ∈ l := by
  unfold parseListItem at h
  split at h
  · exact absurd h (by simp)
  · rename_i c rest2 hdw
    have hsub : ∀ x ∈ c :: rest2, x ∈ l := by
      intro x hx
      rw [← hdw] at hx
      exact (List.dropWhile_sublist _).subset hx
    split at h
    · split at h
      · exact absurd h (by simp)
      · rename_i d rest3
        split at h
        · have hcont : content = (d :: rest3).dropWhile isRustWs := by
            have he := Option.some.inj h
            rw [Prod.mk.injEq, Prod.mk.injEq] at he
            exact he.2.2.symm
          intro x hx
          rw [hcont] at hx
          exact hsub x (List.mem_cons_of_mem c ((List.dropWhile_sublist _).subset hx))
        · exact absurd h (by simp)
    · split at h
      · split at h
        · rename_i rest3 heq
          split at h
          · exact absurd h (by simp)
          · rename_i e rest4
            split at h
            · have hcont : content = (e :: rest4).dropWhile isRustWs := by
                have he := Option.some.inj h
                rw [Prod.mk.injEq, Prod.mk.injEq] at he
                exact he.2.2.symm
              intro x hx
              rw [hcont] at hx
              have hx2 : x ∈ e :: rest4 := (List.dropWhile_sublist _).subset hx
              have hx3 : x ∈ '.' :: e :: rest4 := List.mem_cons_of_mem _ hx2
              rw [← heq] at hx3
              exact hsub x ((List.dropWhile_sublist _).subset hx3)
            · exact absurd h (by simp)
        · exact absurd h (by simp)
      · exact absurd h (by simp)

theorem formatListsGo_noNl (ls : List (List Char)) : ∀ stack : List ListContext,
    (∀ l ∈ ls, '\n' ∉ l) → ∀ p ∈ formatListsGo stack ls, '\n' ∉ p := by
  induction ls with
  | nil => intro stack _ p hp; simp [formatListsGo] at hp
  | cons l ls ih =>
    intro stack hnl p hp
    rw [formatListsGo] at hp
    cases hpl : parseListItem l with
    | none =>
      rw [hpl] at hp
      rcases List.mem_cons.mp hp with he | he
      · rw [he]; exact hnl l (List.mem_cons_self _ _)
      · exact ih [] (fun q hq => hnl q (List.mem_cons_of_mem l hq)) p he
    | some v =>
      obtain ⟨ind, t, content⟩ := v
      rw [hpl] at hp
      rcases List.mem_cons.mp hp with he | he
      · subst he
        obtain ⟨cur, stack2, hst⟩ := listStep_shape stack ind t content
        rw [hst]
        have hcnl : '\n' ∉ content := by
          intro hm
          exact hnl l (List.mem_cons_self _ _) (parse_content_subset hpl '\n' hm)
        exact renderItem_no_nl cur stack2.length content hcnl
      · exact ih _ (fun q hq => hnl q (List.mem_cons_of_mem l hq)) p he

/-- C4: the formatted document always ends with exactly one trailing
newline — the last character is a newline and the character before it, if
any, is not — and the empty document formats to the single newline. -/
theorem c4_trailing_newline :
    (∀ d : String, endsOneNl (format_markdown d).data = true) ∧
    format_markdown "" = "\n" := by
  constructor
  · intro d
    by_cases h : rustTrim d.data = []
    · have hls : splitToLines d.data = [] := by
        unfold splitToLines
        rw [if_pos h]
      rw [show (format_markdown d).data =
        pushNl (joinNl (format_lists (format_lines (splitToLines d.data)))) from rfl, hls]
      rfl
    · have hsl := splitToLines_last d.data h
      have hnl := splitToLines_no_nl d.data
      have h1 : lastTwoOkB (format_lines (splitToLines d.data)) = true :=
        formatLinesGo_lastTwoOk _ LineState.Empty hsl.1 hsl.2
      have h2 : lastTwoOkB (format_lists (format_lines (splitToLines d.data))) = true := by
        rw [pattern_lastTwoOk (format_lists (format_lines (splitToLines d.data)))
          (format_lines (splitToLines d.data))
          (formatListsGo_pattern (format_lines (splitToLines d.data)) [])]
        exact h1
      have h3 : ∀ p ∈ format_lines (splitToLines d.data), '\n' ∉ p :=
        formatLinesGo_noNl _ LineState.Empty hnl
      have h4 : ∀ p ∈ format_lists (format_lines (splitToLines d.data)), '\n' ∉ p :=
        formatListsGo_noNl _ [] h3
      have h5 := join_endsOne _ h2 h4
      rw [show (format_markdown d).data =
        pushNl (joinNl (format_lists (format_lines (splitToLines d.data)))) from rfl]
      exact h5.1
  · rfl

/-! ### No two adjacent blank entries outside code fences -/

theorem step_noAdj (prev : LineState) (l : List Char)
    (hprev : ¬(prev = LineState.CodeStart ∨ prev = LineState.Code))
    (hf : startsWithFence l = false) :
    noAdjEmptyB (formatStep prev l).1 = true ∧
    ((formatStep prev l).1.getLast? = some [] → (formatStep prev l).2 = LineState.Empty) ∧
    (prev = LineState.Empty → (formatStep prev l).1.head? ≠ some []) ∧
    ¬((formatStep prev l).2 = LineState.CodeStart ∨ (formatStep prev l).2 = LineState.Code) ∧
    ((formatStep prev l).1 = [] → (formatStep prev l).2 = LineState.Empty) := by
  unfold formatStep
  cases hcur : get_line_state l prev with
  | Code => exact absurd hcur (gls_not_code_states l prev hprev).1
  | CodeEnd => exact absurd hcur (gls_not_code_states l prev hprev).2
  | CodeStart =>
    exact absurd (gls_codestart_fence l prev hcur) (by rw [hf]; simp)
  | Empty =>
    by_cases hc : prev ≠ LineState.Empty
    · rw [if_pos hc]
      exact ⟨rfl, fun _ => rfl, fun hE => absurd hE hc, by simp, by simp⟩
    · rw [if_neg hc]
      exact ⟨rfl, fun _ => rfl, fun _ => by simp, by simp, fun _ => rfl⟩
  | Normal =>
    have hl : l ≠ [] := by
      intro he
      rw [he, gls_nil_empty prev hprev] at hcur
      exact absurd hcur (by simp)
    have hfl : format_line l ≠ [] := format_line_ne_nil l hl
    by_cases hc : prev = LineState.Table ∨ prev = LineState.CodeEnd ∨ prev = LineState.Blockquote
    · rw [if_pos hc]
      refine ⟨by simp [noAdjEmptyB, hfl], ?_, ?_, by simp, by simp⟩
      · intro h2
        simp at h2
        exact absurd h2 hfl
      · intro hE
        subst hE
        simp at hc
    · rw [if_neg hc]
      refine ⟨by simp [noAdjEmptyB], ?_, ?_, by simp, by simp⟩
      · intro h2
        simp at h2
        exact absurd h2 hfl
      · intro hE
        simp [hfl]
  | Blockquote =>
    have hl : l ≠ [] := by
      intro he
      rw [he, gls_nil_empty prev hprev] at hcur
      exact absurd hcur (by simp)
    have hfl : format_line l ≠ [] := format_line_ne_nil l hl
    by_cases hc : prev ≠ LineState.Empty ∧ prev ≠ LineState.Blockquote
    · rw [if_pos hc]
      refine ⟨by simp [noAdjEmptyB, hfl], ?_, ?_, by simp, by simp⟩
      · intro h2
        simp at h2
        exact absurd h2 hfl
      · intro hE
        exact absurd hE hc.1
    · rw [if_neg hc]
      refine ⟨by simp [noAdjEmptyB], ?_, ?_, by simp, by simp⟩
      · intro h2
        simp at h2
        exact absurd h2 hfl
      · intro hE
        simp [hfl]
  | Table =>
    have hl : l ≠ [] := by
      intro he
      rw [he, gls_nil_empty prev hprev] at hcur
      exact absurd hcur (by simp)
    have hfl : format_line l ≠ [] := format_line_ne_nil l hl
    by_cases hc : prev ≠ LineState.Table ∧ prev ≠ LineState.Empty
    · rw [if_pos hc]
      refine ⟨by simp [noAdjEmptyB, hfl], ?_, ?_, by simp, by simp⟩
      · intro h2
        simp at h2
        exact absurd h2 hfl
      · intro hE
        exact absurd hE hc.2
    · rw [if_neg hc]
      refine ⟨by simp [noAdjEmptyB], ?_, ?_, by simp, by simp⟩
      · intro h2
        simp at h2
        exact absurd h2 hfl
      · intro hE
        simp [hfl]
  | List =>
    have hl : l ≠ [] := by
      intro he
      rw [he, gls_nil_empty prev hprev] at hcur
      exact absurd hcur (by simp)
    have hfl : format_line l ≠ [] := format_line_ne_nil l hl
    by_cases hc : prev ≠ LineState.List ∧ prev ≠ LineState.Empty
    · rw [if_pos hc]
      refine ⟨by simp [noAdjEmptyB, hfl], ?_, ?_, by simp, by simp⟩
      · intro h2
        simp at h2
        exact absurd h2 hfl
      · intro hE
        exact absurd hE hc.2
    · rw [if_neg hc]
      refine ⟨by simp [noAdjEmptyB], ?_, ?_, by simp, by simp⟩
      · intro h2
        simp at h2
        exact absurd h2 hfl
      · intro hE
        simp [hfl]
  | Title =>
    have hl : l ≠ [] := by
      intro he
      rw [he, gls_nil_empty prev hprev] at hcur
      exact absurd hcur (by simp)
    have hfl : format_line l ≠ [] := format_line_ne_nil l hl
    by_cases hc : prev = LineState.Table ∨ prev = LineState.CodeEnd ∨ prev = LineState.List ∨
        prev = LineState.Blockquote
    · rw [if_pos hc]
      refine ⟨by simp [noAdjEmptyB, hfl], fun _ => rfl, ?_, by simp, by simp⟩
      intro hE
      subst hE
      simp at hc
    · rw [if_neg hc]
      refine ⟨by simp [noAdjEmptyB, hfl], fun _ => rfl, ?_, by simp, by simp⟩
      intro hE
      simp [hfl]

theorem formatLinesGo_noAdj (ls : List (List Char)) : ∀ prev : LineState,
    ¬(prev = LineState.CodeStart ∨ prev = LineState.Code) →
    (∀ l ∈ ls, startsWithFence l = false) →
    noAdjEmptyB (formatLinesGo prev ls) = true ∧
      (prev = LineState.Empty → (formatLinesGo prev ls).head? ≠ some []) := by
  induction ls with
  | nil =>
    intro prev _ _
    exact ⟨rfl, by intro _; simp [formatLinesGo]⟩
  | cons l ls ih =>
    intro prev hprev hf
    obtain ⟨s1, s2, s3, s4, s5⟩ := step_noAdj prev l hprev (hf l (List.mem_cons_self _ _))
    have hrest := ih (formatStep prev l).2 s4 (fun q hq => hf q (List.mem_cons_of_mem l hq))
    rw [show formatLinesGo prev (l :: ls) =
      (formatStep prev l).1 ++ formatLinesGo (formatStep prev l).2 ls from rfl]
    constructor
    · apply noAdjEmptyB_append _ _ s1 hrest.1
      intro hlast
      exact hrest.2 (s2 hlast)
    · intro hE
      cases hchunk : (formatStep prev l).1 with
      | nil =>
        rw [List.nil_append]
        exact hrest.2 (s5 hchunk)
      | cons a chunk2 =>
        have h3 := s3 hE
        rw [hchunk] at h3
        simp at h3 ⊢
        exact h3

/-- C10 (amended): for every input line sequence in which no line starts
with a code fence, the output of `format_lines` never contains two
adjacent empty entries; inside fenced code blocks (see
`c10_counterexample`) blank lines are emitted verbatim and can be
adjacent. -/
theorem c10_amended_no_adjacent_blanks (ls : List (List Char))
    (hf : ∀ l ∈ ls, startsWithFence l = false) :
    noAdjEmptyB (format_lines ls) = true :=
  (formatLinesGo_noAdj ls LineState.Empty (by simp) hf).1

/-- C10 witness: the amended theorem applied to a concrete fence-free
line sequence containing a heading followed by a blank line. -/
theorem c10_witness :
    (∀ l ∈ [("# t").data, ([] : List Char), ("x").data], startsWithFence l = false) ∧
    noAdjEmptyB (format_lines [("# t").data, [], ("x").data]) = true :=
  ⟨by decide, c10_amended_no_adjacent_blanks [("# t").data, [], ("x").data] (by decide)⟩

/-! ### Runs of blank lines: the joined output has no triple newline -/

theorem hT_cons_ne (c : Char) (w : List Char) (hc : c ≠ '\n') :
    hasTripleNl (c :: w) = hasTripleNl w := by
  cases w with
  | nil => simp [hasTripleNl]
  | cons a w2 =>
    cases w2 with
    | nil => simp [hasTripleNl]
    | cons b w3 => simp [hasTripleNl, hc]

theorem hT_cons_of_snd (c a : Char) (w : List Char) (ha : a ≠ '\n') :
    hasTripleNl (c :: a :: w) = hasTripleNl (a :: w) := by
  cases w with
  | nil => simp [hasTripleNl]
  | cons b w2 => simp [hasTripleNl, ha]

theorem hasTripleNl_noNl (x : List Char) (h : '\n' ∉ x) : hasTripleNl x = false := by
  induction x with
  | nil => rfl
  | cons c x2 ih =>
    have hc : c ≠ '\n' := fun he => h (by rw [he]; exact List.mem_cons_self _ _)
    rw [hT_cons_ne c x2 hc]
    exact ih (fun hm => h (List.mem_cons_of_mem c hm))

theorem triple_append (x : List Char) (r : List Char) (h : '\n' ∉ x) :
    hasTripleNl (x ++ r) = hasTripleNl r := by
  induction x with
  | nil => rfl
  | cons c x2 ih =>
    have hc : c ≠ '\n' := fun he => h (by rw [he]; exact List.mem_cons_self _ _)
    rw [List.cons_append, hT_cons_ne c (x2 ++ r) hc]
    exact ih (fun hm => h (List.mem_cons_of_mem c hm))

theorem triple_wrap_noNl (x : List Char) (h : '\n' ∉ x) :
    hasTripleNl ('\n' :: (x ++ ['\n'])) = false := by
  cases x with
  | nil => rfl
  | cons a x2 =>
    have ha : a ≠ '\n' := fun he => h (by rw [he]; exact List.mem_cons_self _ _)
    rw [List.cons_append, hT_cons_of_snd '\n' a (x2 ++ ['\n']) ha, ← List.cons_append,
      triple_append (a :: x2) ['\n'] h]
    rfl

theorem hT_mono_cons (c : Char) (w : List Char) (h : hasTripleNl w = true) :
    hasTripleNl (c :: w) = true := by
  cases w with
  | nil => exact absurd h (by simp [hasTripleNl])
  | cons a w2 =>
    cases w2 with
    | nil => exact absurd h (by simp [hasTripleNl])
    | cons b w3 => simp [hasTripleNl, h]

theorem hT_mono_append (w s : List Char) :
    hasTripleNl w = true → hasTripleNl (w ++ s) = true := by
  induction w with
  | nil => intro h; exact absurd h (by simp [hasTripleNl])
  | cons c w2 ih =>
    intro h
    cases w2 with
    | nil => exact absurd h (by simp [hasTripleNl])
    | cons a w3 =>
      cases w3 with
      | nil => exact absurd h (by simp [hasTripleNl])
      | cons b w4 =>
        rw [show hasTripleNl (c :: a :: b :: w4) = ((decide (c = '\n') && decide (a = '\n') &&
          decide (b = '\n')) || hasTripleNl (a :: b :: w4)) from rfl, Bool.or_eq_true] at h
        rcases h with h | h
        · simp [hasTripleNl, h]
        · rw [List.cons_append]
          exact hT_mono_cons c _ (ih h)

theorem joinNl_triple_wrap (L : List (List Char)) : noAdjEmptyB L = true →
    (∀ p ∈ L, '\n' ∉ p) →
    hasTripleNl ('\n' :: (joinNl L ++ ['\n'])) = false := by
  induction L with
  | nil => intro _ _; rfl
  | cons x L' ih =>
    intro hadj hnl
    have hxnl : '\n' ∉ x := hnl x (List.mem_cons_self _ _)
    cases L' with
    | nil => exact triple_wrap_noNl x hxnl
    | cons y t =>
      have hadj2 : noAdjEmptyB (y :: t) = true := by
        rw [noAdjEmptyB_cons_cons, Bool.and_eq_true] at hadj
        exact hadj.2
      have hnl2 : ∀ p ∈ y :: t, '\n' ∉ p := fun p hp => hnl p (List.mem_cons_of_mem x hp)
      have hIH := ih hadj2 hnl2
      rw [joinNl_cons_cons]
      cases x with
      | nil =>
        have hy : y ≠ [] := by
          intro he
          rw [noAdjEmptyB_cons_cons, he] at hadj
          simp at hadj
        cases y with
        | nil => exact absurd rfl hy
        | cons b y2 =>
          have hb : b ≠ '\n' := by
            intro he
            exact hnl2 (b :: y2) (List.mem_cons_self _ _)
              (by rw [he]; exact List.mem_cons_self _ _)
          obtain ⟨j2, hj2⟩ : ∃ j2, joinNl ((b :: y2) :: t) = b :: j2 := by
            cases t with
            | nil => exact ⟨y2, rfl⟩
            | cons z t2 => exact ⟨y2 ++ '\n' :: joinNl (z :: t2), rfl⟩
          rw [List.nil_append, hj2]
          rw [show ('\n' :: ((('\n' : Char) :: b :: j2) ++ ['\n']) : List Char) =
            '\n' :: '\n' :: b :: (j2 ++ ['\n']) from by simp]
          rw [show hasTripleNl ('\n' :: '\n' :: b :: (j2 ++ ['\n'])) =
            ((decide (('\n' : Char) = '\n') && decide (('\n' : Char) = '\n') &&
              decide (b = '\n')) || hasTripleNl ('\n' :: b :: (j2 ++ ['\n']))) from rfl]
          simp [hb]
          rw [show ('\n' :: b :: (j2 ++ ['\n']) : List Char) =
            '\n' :: ((b :: j2) ++ ['\n']) from by simp, ← hj2]
          exact hIH
      | cons a x2 =>
        have ha : a ≠ '\n' := fun he => hxnl (by rw [he]; exact List.mem_cons_self _ _)
        rw [show ((((a :: x2) ++ '\n' :: joinNl (y :: t)) ++ ['\n']) : List Char) =
          a :: (x2 ++ ('\n' :: (joinNl (y :: t) ++ ['\n']))) from by simp]
        rw [hT_cons_of_snd '\n' a _ ha]
        rw [show (a :: (x2 ++ ('\n' :: (joinNl (y :: t) ++ ['\n']))) : List Char) =
          ((a :: x2) ++ ('\n' :: (joinNl (y :: t) ++ ['\n']))) from rfl]
        rw [triple_append (a :: x2) _ hxnl]
        exact hIH

/-- C7 (amended): for every document in which no line of the split input
starts with a code fence, no run of blank lines survives - the formatted
output never contains three consecutive newlines; and the spec's collapse
behaviour on a concrete fence-free document with blank and
whitespace-only runs.  Inside fenced code blocks (`c7_counterexample`)
blank lines are emitted verbatim and a run does survive. -/
theorem c7_amended_blank_collapse :
    (∀ d : String, (∀ l ∈ splitToLines d.data, startsWithFence l = false) →
      hasTripleNl (format_markdown d).data = false) ∧
    format_markdown "line1\n\n\nline2\n\n  \n  \nline3" = "line1\n\nline2\n\nline3\n" := by
  constructor
  · intro d hfence
    have hnoadj : noAdjEmptyB (format_lines (splitToLines d.data)) = true :=
      (formatLinesGo_noAdj _ LineState.Empty (by simp) hfence).1
    have hnoadj2 : noAdjEmptyB (format_lists (format_lines (splitToLines d.data))) = true := by
      rw [pattern_noAdj (format_lists (format_lines (splitToLines d.data)))
        (format_lines (splitToLines d.data)) (formatListsGo_pattern _ [])]
      exact hnoadj
    have hnl : ∀ p ∈ format_lists (format_lines (splitToLines d.data)), '\n' ∉ p :=
      formatListsGo_noNl _ [] (formatLinesGo_noNl _ LineState.Empty (splitToLines_no_nl d.data))
    have hmt := joinNl_triple_wrap (format_lists (format_lines (splitToLines d.data)))
      hnoadj2 hnl
    rw [show (format_markdown d).data =
      pushNl (joinNl (format_lists (format_lines (splitToLines d.data)))) from rfl]
    by_contra hc
    rw [Bool.not_eq_false] at hc
    unfold pushNl at hc
    by_cases hl : (joinNl (format_lists (format_lines (splitToLines d.data)))).getLast? =
        some '\n'
    · rw [if_pos hl] at hc
      exact absurd (hT_mono_cons '\n' _ (hT_mono_append _ ['\n'] hc)) (by rw [hmt]; simp)
    · rw [if_neg hl] at hc
      exact absurd (hT_mono_cons '\n' _ hc) (by rw [hmt]; simp)
  · decide

/-- C7 witness: the amended collapse theorem applied to the fence-free
document with a run of two blank lines between two text lines. -/
theorem c7_witness :
    (∀ l ∈ splitToLines ("a\n\n\nb").data, startsWithFence l = false) ∧
    hasTripleNl (format_markdown "a\n\n\nb").data = false :=
  ⟨by decide, c7_amended_blank_collapse.1 "a\n\n\nb" (by decide)⟩

/-! ### C9: the splitter versus the spec description -/

theorem trimStart_cons_pos (c : Char) (t : List Char) (h : isRustWs c = true) :
    trimStart (c :: t) = trimStart t := by
  unfold trimStart
  rw [List.dropWhile_cons, if_pos h]

theorem trimStart_cons_neg (c : Char) (t : List Char) (h : isRustWs c = false) :
    trimStart (c :: t) = c :: t := by
  unfold trimStart
  rw [List.dropWhile_cons, if_neg (by simp [h])]

theorem isBlank_cons (c : Char) (l : List Char) :
    isBlankLine (c :: l) = (isRustWs c && isBlankLine l) := rfl

theorem isBlank_trimStart (l : List Char) : isBlankLine (trimStart l) = isBlankLine l := by
  induction l with
  | nil => rfl
  | cons c t ih =>
    by_cases h : isRustWs c = true
    · rw [trimStart_cons_pos c t h, ih, isBlank_cons, h, Bool.true_and]
    · rw [trimStart_cons_neg c t (by simpa using h)]

theorem trimEnd_cons_nil (c : Char) (l : List Char) (h : trimEnd l = []) :
    trimEnd (c :: l) = if isRustWs c then [] else [c] := by
  rw [trimEnd]
  cases he : trimEnd l with
  | nil => rfl
  | cons r rr => exact absurd he (by rw [h]; simp)

theorem splitOnNl_cons_nl (rest : List Char) :
    splitOnNl ('\n' :: rest) = [] :: splitOnNl rest := by
  rw [splitOnNl, if_pos rfl]

theorem splitOnNl_cons_not_nl (c : Char) (rest : List Char) (h : ¬ c = '\n') :
    ∃ hd tl, splitOnNl rest = hd :: tl ∧ splitOnNl (c :: rest) = (c :: hd) :: tl := by
  cases hs : splitOnNl rest with
  | nil => exact absurd hs (splitOnNl_ne_nil rest)
  | cons hd tl =>
    refine ⟨hd, tl, rfl, ?_⟩
    rw [splitOnNl, if_neg h, hs]

theorem splitOnNl_subset (l : List Char) : ∀ p ∈ splitOnNl l, ∀ c ∈ p, c ∈ l := by
  induction l with
  | nil =>
    intro p hp c hc
    simp [splitOnNl] at hp
    rw [hp] at hc
    simp at hc
  | cons a rest ih =>
    intro p hp c hc
    by_cases ha : a = '\n'
    · subst ha
      rw [splitOnNl_cons_nl] at hp
      rcases List.mem_cons.mp hp with he | he
      · rw [he] at hc; simp at hc
      · exact List.mem_cons_of_mem _ (ih p he c hc)
    · obtain ⟨hd, tl, hs, he⟩ := splitOnNl_cons_not_nl a rest ha
      rw [he] at hp
      rcases List.mem_cons.mp hp with hq | hq
      · rw [hq] at hc
        rcases List.mem_cons.mp hc with hc2 | hc2
        · rw [hc2]; exact List.mem_cons_self _ _
        · exact List.mem_cons_of_mem _
            (ih hd (by rw [hs]; exact List.mem_cons_self _ _) c hc2)
      · exact List.mem_cons_of_mem _
          (ih p (by rw [hs]; exact List.mem_cons_of_mem _ hq) c hc)

theorem splitOnNl_mem_entry (l : List Char) : ∀ c ∈ l, ¬ c = '\n' →
    ∃ p ∈ splitOnNl l, c ∈ p := by
  induction l with
  | nil => intro c hc _; simp at hc
  | cons a rest ih =>
    intro c hc hcnl
    by_cases ha : a = '\n'
    · subst ha
      rcases List.mem_cons.mp hc with he | he
      · exact absurd he hcnl
      · obtain ⟨p, hp, hcp⟩ := ih c he hcnl
        exact ⟨p, by rw [splitOnNl_cons_nl]; exact List.mem_cons_of_mem _ hp, hcp⟩
    · obtain ⟨hd, tl, hs, he⟩ := splitOnNl_cons_not_nl a rest ha
      rcases List.mem_cons.mp hc with hca | hca
      · exact ⟨a :: hd, by rw [he]; exact List.mem_cons_self _ _,
          by rw [hca]; exact List.mem_cons_self _ _⟩
      · obtain ⟨p, hp, hcp⟩ := ih c hca hcnl
        rw [hs] at hp
        rcases List.mem_cons.mp hp with hph | hph
        · refine ⟨a :: hd, by rw [he]; exact List.mem_cons_self _ _, ?_⟩
          rw [hph] at hcp
          exact List.mem_cons_of_mem _ hcp
        · exact ⟨p, by rw [he]; exact List.mem_cons_of_mem _ hph, hcp⟩

theorem dropEndWhile_cons_nil (p : List Char → Bool) (x : List Char) (t : List (List Char))
    (h : dropEndWhile p t = []) :
    dropEndWhile p (x :: t) = if p x then [] else [x] := by
  rw [dropEndWhile, h]

theorem dropEndWhile_cons_ne (p : List Char → Bool) (x : List Char) (t : List (List Char))
    (h : dropEndWhile p t ≠ []) :
    dropEndWhile p (x :: t) = x :: dropEndWhile p t := by
  rw [dropEndWhile]
  cases hd : dropEndWhile p t with
  | nil => exact absurd hd h
  | cons r rr => rfl

theorem dropEndWhile_nil_of_all (p : List Char → Bool) (L : List (List Char))
    (h : ∀ y ∈ L, p y = true) : dropEndWhile p L = [] := by
  induction L with
  | nil => rfl
  | cons x t ih =>
    rw [dropEndWhile_cons_nil p x t (ih (fun y hy => h y (List.mem_cons_of_mem x hy))),
      if_pos (h x (List.mem_cons_self x t))]

theorem dropEndWhile_ne_nil_of_mem (p : List Char → Bool) (L : List (List Char))
    (y : List Char) (hy : y ∈ L) (hp : p y = false) : dropEndWhile p L ≠ [] := by
  induction L with
  | nil => simp at hy
  | cons x t ih =>
    by_cases hd : dropEndWhile p t = []
    · rcases List.mem_cons.mp hy with he | he
      · rw [dropEndWhile_cons_nil p x t hd, if_neg (by rw [← he, hp]; simp)]
        simp
      · exact absurd hd (ih he)
    · rw [dropEndWhile_cons_ne p x t hd]
      simp

theorem splitOnNl_trimStart (d : List Char) : trimStart d ≠ [] →
    splitOnNl (trimStart d) = trimStartFirst ((splitOnNl d).dropWhile isBlankLine) := by
  induction d with
  | nil => intro h; exact absurd rfl h
  | cons c rest ih =>
    intro h
    by_cases hws : isRustWs c = true
    · rw [trimStart_cons_pos c rest hws] at h ⊢
      rw [ih h]
      by_cases hnl : c = '\n'
      · subst hnl
        rw [splitOnNl_cons_nl, List.dropWhile_cons,
          if_pos (show isBlankLine [] = true from rfl)]
      · obtain ⟨hd, tl, hs, he⟩ := splitOnNl_cons_not_nl c rest hnl
        rw [he, hs, List.dropWhile_cons, List.dropWhile_cons, isBlank_cons, hws,
          Bool.true_and]
        by_cases hb : isBlankLine hd = true
        · rw [if_pos hb, if_pos hb]
        · rw [if_neg hb, if_neg hb]
          show trimStart hd :: tl = trimStart (c :: hd) :: tl
          rw [trimStart_cons_pos c hd hws]
    · have hcf : isRustWs c = false := by simpa using hws
      rw [trimStart_cons_neg c rest hcf]
      have hnl : ¬ c = '\n' := by
        intro he
        rw [he] at hcf
        exact absurd hcf (by decide)
      obtain ⟨hd, tl, hs, he⟩ := splitOnNl_cons_not_nl c rest hnl
      rw [he, List.dropWhile_cons,
        show isBlankLine (c :: hd) = false from by rw [isBlank_cons, hcf]; rfl,
        if_neg (by simp)]
      show (c :: hd) :: tl = trimStart (c :: hd) :: tl
      rw [trimStart_cons_neg c hd hcf]

theorem splitOnNl_trimEnd (A : List Char) : trimEnd A ≠ [] →
    splitOnNl (trimEnd A) = modifyLast trimEnd (dropEndWhile isBlankLine (splitOnNl A)) := by
  induction A with
  | nil => intro h; exact absurd rfl h
  | cons c rest ih =>
    intro h
    by_cases hr : trimEnd rest = []
    · have hallws : ∀ x ∈ rest, isRustWs x = true :=
        List.all_eq_true.mp ((trimEnd_eq_nil_iff rest).mp hr)
      have hcws : isRustWs c = false := by
        cases hcb : isRustWs c with
        | false => rfl
        | true =>
          exact absurd (by rw [trimEnd_cons_nil c rest hr, if_pos hcb]) h
      have hce : trimEnd (c :: rest) = [c] := by
        rw [trimEnd_cons_nil c rest hr, if_neg (by simp [hcws])]
      rw [hce]
      have hcnl : ¬ c = '\n' := by
        intro he
        rw [he] at hcws
        exact absurd hcws (by decide)
      rw [show splitOnNl [c] = [[c]] from by rw [splitOnNl, if_neg hcnl]; rfl]
      obtain ⟨hd, tl, hs, he⟩ := splitOnNl_cons_not_nl c rest hcnl
      rw [he]
      have hblanktl : ∀ y ∈ tl, isBlankLine y = true := by
        intro y hy
        have hall : ∀ x ∈ y, isRustWs x = true := by
          intro x hx
          exact hallws x
            (splitOnNl_subset rest y (by rw [hs]; exact List.mem_cons_of_mem _ hy) x hx)
        exact List.all_eq_true.mpr hall
      have hblankhd : ∀ x ∈ hd, isRustWs x = true := by
        intro x hx
        exact hallws x (splitOnNl_subset rest hd (by rw [hs]; exact List.mem_cons_self _ _) x hx)
      have hnb : isBlankLine (c :: hd) = false := by
        rw [isBlank_cons, hcws]
        rfl
      rw [dropEndWhile_cons_nil _ _ _ (dropEndWhile_nil_of_all _ _ hblanktl),
        if_neg (by simp [hnb]),
        show modifyLast trimEnd [c :: hd] = [trimEnd (c :: hd)] from rfl,
        trimEnd_cons_nil c hd ((trimEnd_eq_nil_iff hd).mpr (List.all_eq_true.mpr hblankhd)),
        if_neg (by simp [hcws])]
    · rw [trimEnd_cons_ne c rest hr]
      have hex : ∃ x ∈ rest, isRustWs x = false := by
        by_contra hall
        push_neg at hall
        refine hr ((trimEnd_eq_nil_iff rest).mpr (List.all_eq_true.mpr ?_))
        intro x hx
        cases hb : isRustWs x with
        | false => exact absurd hb (hall x hx)
        | true => rfl
      obtain ⟨x0, hx0, hx0f⟩ := hex
      have hx0nl : ¬ x0 = '\n' := by
        intro he
        rw [he] at hx0f
        exact absurd hx0f (by decide)
      obtain ⟨p0, hp0, hx0p⟩ := splitOnNl_mem_entry rest x0 hx0 hx0nl
      have hp0b : isBlankLine p0 = false := by
        cases hb : isBlankLine p0 with
        | false => rfl
        | true =>
          have hb2 : p0.all isRustWs = true := hb
          have := List.all_eq_true.mp hb2 x0 hx0p
          rw [hx0f] at this
          exact absurd this (by simp)
      have hdne : dropEndWhile isBlankLine (splitOnNl rest) ≠ [] :=
        dropEndWhile_ne_nil_of_mem _ _ p0 hp0 hp0b
      by_cases hcnl : c = '\n'
      · subst hcnl
        rw [splitOnNl_cons_nl, splitOnNl_cons_nl, ih hr,
          dropEndWhile_cons_ne _ _ _ hdne, modifyLast_cons trimEnd [] _ hdne]
      · obtain ⟨hd, tl, hs, he⟩ := splitOnNl_cons_not_nl c rest hcnl
        obtain ⟨hd2, tl2, hs2, he2⟩ := splitOnNl_cons_not_nl c (trimEnd rest) hcnl
        rw [he2, he]
        by_cases hdt : dropEndWhile isBlankLine tl = []
        · have hBhd : isBlankLine hd = false := by
            cases hb : isBlankLine hd with
            | false => rfl
            | true =>
              refine absurd ?_ hdne
              rw [hs, dropEndWhile_cons_nil _ _ _ hdt, if_pos hb]
          have hDeq : dropEndWhile isBlankLine (splitOnNl rest) = [hd] := by
            rw [hs, dropEndWhile_cons_nil _ _ _ hdt, if_neg (by simp [hBhd])]
          have hih := ih hr
          rw [hDeq, hs2] at hih
          injection hih with h1 h2
          subst h1
          subst h2
          have htne : trimEnd hd ≠ [] := by
            intro he3
            have hbt : isBlankLine hd = true := (trimEnd_eq_nil_iff hd).mp he3
            rw [hbt] at hBhd
            simp at hBhd
          rw [dropEndWhile_cons_nil _ _ _ hdt,
            if_neg (by rw [isBlank_cons, hBhd, Bool.and_false]; simp),
            show modifyLast trimEnd [c :: hd] = [trimEnd (c :: hd)] from rfl,
            trimEnd_cons_ne c hd htne]
        · have hih := ih hr
          rw [hs, dropEndWhile_cons_ne _ _ _ hdt, modifyLast_cons trimEnd hd _ hdt,
            hs2] at hih
          injection hih with h1 h2
          rw [h1, h2, dropEndWhile_cons_ne _ _ _ hdt,
            modifyLast_cons trimEnd (c :: hd) _ hdt]

theorem trimEnd_trimStart_comm (l : List Char) :
    trimEnd (trimStart l) = trimStart (trimEnd l) := by
  induction l with
  | nil => rfl
  | cons c t ih =>
    by_cases hws : isRustWs c = true
    · rw [trimStart_cons_pos c t hws, ih]
      by_cases ht : trimEnd t = []
      · rw [ht, trimEnd_cons_nil c t ht, if_pos hws]
      · rw [trimEnd_cons_ne c t ht, trimStart_cons_pos c _ hws]
    · have hcf : isRustWs c = false := by simpa using hws
      rw [trimStart_cons_neg c t hcf]
      by_cases ht : trimEnd t = []
      · have hce : trimEnd (c :: t) = [c] := by
          rw [trimEnd_cons_nil c t ht, if_neg (by simp [hcf])]
        rw [hce, trimStart_cons_neg c [] hcf]
      · rw [trimEnd_cons_ne c t ht, trimStart_cons_neg c (trimEnd t) hcf]

theorem map_modifyLast_trimEnd (X : List (List Char)) :
    (modifyLast trimEnd X).map trimEnd = X.map trimEnd := by
  induction X with
  | nil => rfl
  | cons x t ih =>
    cases t with
    | nil =>
      show [trimEnd (trimEnd x)] = [trimEnd x]
      rw [trimEnd_idem]
    | cons y t2 =>
      rw [modifyLast_cons trimEnd x _ (by simp)]
      show trimEnd x :: (modifyLast trimEnd (y :: t2)).map trimEnd =
        trimEnd x :: (y :: t2).map trimEnd
      rw [ih]

theorem dropEnd_trimStartFirst_comm (Y : List (List Char)) :
    dropEndWhile isBlankLine (trimStartFirst Y) =
      trimStartFirst (dropEndWhile isBlankLine Y) := by
  cases Y with
  | nil => rfl
  | cons hd tl =>
    show dropEndWhile isBlankLine (trimStart hd :: tl) =
      trimStartFirst (dropEndWhile isBlankLine (hd :: tl))
    by_cases hdt : dropEndWhile isBlankLine tl = []
    · rw [dropEndWhile_cons_nil _ _ _ hdt, dropEndWhile_cons_nil _ _ _ hdt,
        isBlank_trimStart hd]
      by_cases hb : isBlankLine hd = true
      · rw [if_pos hb, if_pos hb]
        rfl
      · rw [if_neg hb, if_neg hb]
        rfl
    · rw [dropEndWhile_cons_ne _ _ _ hdt, dropEndWhile_cons_ne _ _ _ hdt]
      rfl

theorem map_trimStartFirst_comm (Z : List (List Char)) :
    (trimStartFirst Z).map trimEnd = trimStartFirst (Z.map trimEnd) := by
  cases Z with
  | nil => rfl
  | cons hd tl =>
    show trimEnd (trimStart hd) :: tl.map trimEnd = trimStart (trimEnd hd) :: tl.map trimEnd
    rw [trimEnd_trimStart_comm]

/-- C9 (amended): for every document, the splitting stage equals the
spec's description (drop leading and trailing blank lines of the
document, strip trailing whitespace from every remaining line) followed
by one further change the spec misses: the leading whitespace of the
first remaining line is also stripped, because `str::trim` trims the
whole document before it is split (see `c9_counterexample`). -/
theorem c9_amended_splitter (d : List Char) : splitToLines d = specSplitAmended d := by
  by_cases h : rustTrim d = []
  · rw [show splitToLines d = [] from by unfold splitToLines; rw [if_pos h]]
    have hallws : ∀ x ∈ d, isRustWs x = true := by
      intro x hx
      have h1 : ∀ y ∈ trimStart d, isRustWs y = true :=
        List.all_eq_true.mp ((trimEnd_eq_nil_iff (trimStart d)).mp h)
      have hx2 : x ∈ d.takeWhile isRustWs ++ d.dropWhile isRustWs := by
        rw [List.takeWhile_append_dropWhile]
        exact hx
      rcases List.mem_append.mp hx2 with hm | hm
      · exact List.mem_takeWhile_imp hm
      · exact h1 x hm
    have hblank : ∀ p ∈ splitOnNl d, isBlankLine p = true := by
      intro p hp
      have hall : ∀ x ∈ p, isRustWs x = true := by
        intro x hx
        exact hallws x (splitOnNl_subset d p hp x hx)
      exact List.all_eq_true.mpr hall
    rw [show specSplitAmended d = trimStartFirst (specSplit d) from rfl]
    unfold specSplit
    rw [List.dropWhile_eq_nil_iff.mpr hblank]
    rfl
  · have hts : trimStart d ≠ [] := by
      intro he
      apply h
      unfold rustTrim
      rw [he]
      rfl
    rw [show splitToLines d = (splitOnNl (rustTrim d)).map trimEnd from by
      unfold splitToLines
      rw [if_neg h]]
    rw [show rustTrim d = trimEnd (trimStart d) from rfl,
      splitOnNl_trimEnd (trimStart d) h, map_modifyLast_trimEnd,
      splitOnNl_trimStart d hts, dropEnd_trimStartFirst_comm, map_trimStartFirst_comm]
    rfl
